import Mathlib

/-! # Bulk CSV ingestion of the device service (`logic.go`, `main.go`)

A shallow embedding of `uploadCSV`, its batcher goroutine, its worker loop,
`processBatch` and `atoiSafe`, together with the two standard-library
functions they call (`strings.Split` and `strconv.Atoi`, 64-bit `int`).

Go strings are byte sequences, so a string is a list of bytes here; the Go
`int` is an `Int` reduced into the signed 64-bit range where the code does
arithmetic, the Go `uint` a `Nat` below `2 ^ 64`.
-/

namespace MiniProject

/-- A Go `byte`. -/
abbrev Byte := Fin 256

/-- A Go `string`: an immutable sequence of bytes. -/
abbrev GoString := List Byte

/-- The bytes of a string literal (its UTF-8 encoding, as Go stores it). -/
def utf8 (s : String) : GoString :=
  (s.data.flatMap String.utf8EncodeChar).map (fun b => b.val)

/-! ## `strings.Split` -/

namespace strings

/-- `strings.Split(s, sep)` for a one-byte separator (the code calls it with
`","`): the pieces of `s` between the separators, in order; `n` separators
give `n + 1` pieces, and the empty string gives one empty piece. -/
def Split (s : GoString) (sep : Byte) : List GoString :=
  match s with
  | [] => [[]]
  | c :: cs =>
    if c = sep then [] :: Split cs sep
    else
      match Split cs sep with
      | [] => [[c]]
      | f :: fs => (c :: f) :: fs

end strings

/-! ## `strconv.Atoi` on a 64-bit platform

`atoiSafe` calls `strconv.Atoi` of the Go standard library
(`strconv/atoi.go`). Its text, for reference, with `ParseInt` and
`ParseUint` cut down to what base 10 and bit size 0 reach:

```go
func Atoi(s string) (int, error) {
	sLen := len(s)
	if intSize == 32 && (0 < sLen && sLen < 10) ||
		intSize == 64 && (0 < sLen && sLen < 19) {
		// Fast path for small integers that fit int type.
		s0 := s
		if s[0] == '-' || s[0] == '+' {
			s = s[1:]
			if len(s) < 1 {
				return 0, syntaxError(fnAtoi, s0)
			}
		}
		n := 0
		for _, ch := range []byte(s) {
			ch -= '0'
			if ch > 9 {
				return 0, syntaxError(fnAtoi, s0)
			}
			n = n*10 + int(ch)
		}
		if s0[0] == '-' {
			n = -n
		}
		return n, nil
	}
	// Slow path for invalid, big, or underscored integers.
	i64, err := ParseInt(s, 10, 0)
	return int(i64), err
}

func ParseInt(s string, base int, bitSize int) (i int64, err error) {
	if s == "" {
		return 0, syntaxError(fnParseInt, s)
	}
	s0 := s
	neg := false
	if s[0] == '+' {
		s = s[1:]
	} else if s[0] == '-' {
		neg = true
		s = s[1:]
	}
	var un uint64
	un, err = ParseUint(s, base, bitSize)
	if err != nil && err.(*NumError).Err != ErrRange {
		return 0, err
	}
	if bitSize == 0 {
		bitSize = IntSize
	}
	cutoff := uint64(1 << uint(bitSize-1))
	if !neg && un >= cutoff {
		return int64(cutoff - 1), rangeError(fnParseInt, s0)
	}
	if neg && un > cutoff {
		return -int64(cutoff), rangeError(fnParseInt, s0)
	}
	n := int64(un)
	if neg {
		n = -n
	}
	return n, nil
}

func ParseUint(s string, base int, bitSize int) (uint64, error) {
	if s == "" {
		return 0, syntaxError(fnParseUint, s)
	}
	base0 := base == 0
	// base 10: valid base, nothing to do
	if bitSize == 0 {
		bitSize = IntSize
	}
	cutoff := maxUint64/10 + 1
	maxVal := uint64(1)<<uint(bitSize) - 1
	var n uint64
	for _, c := range []byte(s) {
		var d byte
		switch {
		case c == '_' && base0:
			underscores = true
			continue
		case '0' <= c && c <= '9':
			d = c - '0'
		case 'a' <= lower(c) && lower(c) <= 'z':
			d = lower(c) - 'a' + 10
		default:
			return 0, syntaxError(fnParseUint, s0)
		}
		if d >= byte(base) {
			return 0, syntaxError(fnParseUint, s0)
		}
		if n >= cutoff {
			// n*base overflows
			return maxVal, rangeError(fnParseUint, s0)
		}
		n *= uint64(base)
		n1 := n + uint64(d)
		if n1 < n || n1 > maxVal {
			// n+d overflows
			return maxVal, rangeError(fnParseUint, s0)
		}
		n = n1
	}
	return n, nil
}
```

The bytes `'+'`, `','`, `'-'`, `'0'`, `'9'`, `'a'`, `'z'` are 43, 44, 45, 48,
57, 97, 122. -/

namespace strconv

/-- The `Err` field of a `*NumError`: `ErrSyntax` or `ErrRange`. -/
inductive NumError where
  | errSyntax
  | errRange
deriving DecidableEq

/-- `intSize`, the size of `int` in bits. -/
def intSize : Nat := 64

/-- `maxUint64`. -/
def maxUint64 : Nat := 2 ^ 64 - 1

/-- Conversion of an integer to `int64` / 64-bit `int` (two's complement). -/
def toInt64 (x : Int) : Int := (x + 2 ^ 63) % 2 ^ 64 - 2 ^ 63

/-- Conversion of an integer to `uint64` / 64-bit `uint`. -/
def toUint64 (x : Int) : Nat := (x % 2 ^ 64).toNat

/-- `lower(c)`, that is `c | ('x' - 'X')`. -/
def lower (c : Byte) : Nat := c.val ||| 32

/-- The `switch` of `ParseUint` that reads one byte as a digit (`base0` is
false for base 10, so the underscore case never fires): `none` is the
`default` branch, a syntax error. -/
def digitOf (c : Byte) : Option Nat :=
  if 48 ≤ c.val ∧ c.val ≤ 57 then some (c.val - 48)
  else if 97 ≤ lower c ∧ lower c ≤ 122 then some (lower c - 97 + 10)
  else none

/-- The loop of `ParseUint`, with `n` the accumulator (a `uint64`). -/
def parseUintLoop (base cutoff maxVal : Nat) : GoString → Nat → Nat × Option NumError
  | [], n => (n, none)
  | c :: cs, n =>
    match digitOf c with
    | none => (0, some NumError.errSyntax)
    | some d =>
      if d ≥ base then (0, some NumError.errSyntax)
      else if n ≥ cutoff then (maxVal, some NumError.errRange)
      else
        let n10 := (n * base) % 2 ^ 64
        let n1 := (n10 + d) % 2 ^ 64
        if n1 < n10 ∨ n1 > maxVal then (maxVal, some NumError.errRange)
        else parseUintLoop base cutoff maxVal cs n1

/-- `ParseUint(s, 10, 0)`: the value and the error (`none` is `nil`). -/
def ParseUint (s : GoString) : Nat × Option NumError :=
  if s = [] then (0, some NumError.errSyntax)
  else
    let bitSize := intSize
    let cutoff := maxUint64 / 10 + 1
    let maxVal := 2 ^ bitSize - 1
    parseUintLoop 10 cutoff maxVal s 0

/-- `ParseInt(s, 10, 0)`: the value (an `int64`) and the error. The leading
sign is picked off, the rest goes through `ParseUint`; a range error of
`ParseUint` falls through to the clamping below, a syntax error returns 0. -/
def ParseInt (s : GoString) : Int × Option NumError :=
  match s with
  | [] => (0, some NumError.errSyntax)
  | c :: rest =>
    let neg : Bool := if c = 43 then false else if c = 45 then true else false
    let s1 : GoString := if c = 43 then rest else if c = 45 then rest else s
    let r := ParseUint s1
    let un := r.1
    if r.2 = some NumError.errSyntax then (0, some NumError.errSyntax)
    else
      let cutoff : Nat := 2 ^ (intSize - 1)
      if neg = false ∧ un ≥ cutoff then (toInt64 ((cutoff : Int) - 1), some NumError.errRange)
      else if neg = true ∧ un > cutoff then (toInt64 (-(cutoff : Int)), some NumError.errRange)
      else
        let n := toInt64 (un : Int)
        (if neg = true then toInt64 (-n) else n, none)

/-- The loop of the fast path of `Atoi`: `ch -= '0'` wraps around in a
byte, `n` is an `int`; `none` is the syntax error. -/
def atoiFastLoop : GoString → Int → Option Int
  | [], n => some n
  | ch :: cs, n =>
    let ch : Byte := ch - 48
    if ch > 9 then none
    else atoiFastLoop cs (toInt64 (toInt64 (n * 10) + (ch.val : Int)))

/-- `strconv.Atoi(s)`: the value and the error. Strings of 1 to 18 bytes
take the fast path, all others go through `ParseInt(s, 10, 0)`. -/
def Atoi (s : GoString) : Int × Option NumError :=
  let sLen := s.length
  if (intSize = 32 ∧ (0 < sLen ∧ sLen < 10)) ∨ (intSize = 64 ∧ (0 < sLen ∧ sLen < 19)) then
    match s with
    | [] => (0, some NumError.errSyntax)
    | c0 :: rest =>
      let signed : Bool := c0 = 45 ∨ c0 = 43
      let s1 := if signed then rest else s
      if signed ∧ s1.length < 1 then (0, some NumError.errSyntax)
      else
        match atoiFastLoop s1 0 with
        | none => (0, some NumError.errSyntax)
        | some n => (if c0 = 45 then toInt64 (-n) else n, none)
  else
    let r := ParseInt s
    (toInt64 r.1, r.2)

end strconv

/-! ## The service: `Device`, `atoiSafe`, the batcher goroutine -/

/-- `chunkSize`. -/
def chunkSize : Nat := 1000

/-- The `Device` record of `main.go`. -/
structure Device where
  ID : Nat
  DeviceName : GoString
  DeviceType : GoString
  Brand : GoString
  Model : GoString
  Os : GoString
  OsVersion : GoString
  PurchaseDate : GoString
  WarrantyEnd : GoString
  Status : GoString
  Price : Nat
deriving DecidableEq

/-- `atoiSafe`: the value `strconv.Atoi` returns, its error dropped. -/
def atoiSafe (str : GoString) : Int := (strconv.Atoi str).1

/-- The `Device` literal of the batcher's loop, built from the fields `data`
of a record (`ID` is not set and keeps its zero value). -/
def deviceOf (data : List GoString) : Device :=
  { ID := 0
    DeviceName := data.getD 0 []
    DeviceType := data.getD 1 []
    Brand := data.getD 2 []
    Model := data.getD 3 []
    Os := data.getD 4 []
    OsVersion := data.getD 5 []
    PurchaseDate := data.getD 6 []
    WarrantyEnd := data.getD 7 []
    Status := data.getD 8 []
    Price := strconv.toUint64 (atoiSafe (data.getD 9 [])) }

/-- The body of the batcher's loop up to the `append`: split the record on
`","`, skip it (`none`) when it has fewer than 10 fields, else build the
`Device` from fields 0 to 9. -/
def parseRecord (record : GoString) : Option Device :=
  let data := strings.Split record 44
  if data.length < 10 then none
  else some (deviceOf data)

/-- The state of the batcher goroutine: the batch being filled, the batches
already sent to `batchChannel` (oldest first) and the records it logged as
skipped. -/
structure BatcherState where
  batch : List Device
  sent : List (List Device)
  skipped : List GoString

/-- One iteration of `for record := range recordChannel`. -/
def batcherStep (st : BatcherState) (record : GoString) : BatcherState :=
  match parseRecord record with
  | none => { st with skipped := st.skipped ++ [record] }
  | some device =>
    let batch := st.batch ++ [device]
    if batch.length ≥ chunkSize then
      { st with batch := [], sent := st.sent ++ [batch] }
    else
      { st with batch := batch }

/-- The batcher goroutine run on the records it receives, up to the close of
`batchChannel`: the loop, then the send of the remaining batch if any. -/
def batcherRun (records : List GoString) : BatcherState :=
  let st := records.foldl batcherStep { batch := [], sent := [], skipped := [] }
  if st.batch.length > 0 then { st with sent := st.sent ++ [st.batch] }
  else st

/-- The batches the batcher sends to `batchChannel`, in emission order. -/
def batcher (records : List GoString) : List (List Device) :=
  (batcherRun records).sent

/-! ## `uploadCSV`: the goroutines, the two channels and the wait group

The handler starts ten workers, the reader and the batcher, and waits on the
wait group. Each goroutine is a small state machine; `step` performs the next
action of one goroutine, and is `none` when that goroutine is blocked on a
channel (or on the wait group) or has returned. An execution is a schedule:
the list of the goroutines that act, in order. -/

/-- `numWorkers`. -/
def numWorkers : Nat := 10

/-- The capacity of `recordChannel`. -/
def recordChannelCap : Nat := 10000

/-- The capacity of `batchChannel`. -/
def batchChannelCap : Nat := 100

/-- What `c.JSON(code, gin.H{key: value})` sends. -/
structure Response where
  code : Nat
  key : String
  value : String
deriving DecidableEq

/-- `respondWithError`. -/
def respondWithError (code : Nat) (message : String) : Response :=
  { code := code, key := "error", value := message }

/-- The response at the end of `uploadCSV`. -/
def uploadedResponse : Response :=
  { code := 200, key := "message", value := "CSV uploaded and processed successfully" }

/-- The lines the goroutines of `uploadCSV` and `processBatch` write to the
log. -/
inductive LogLine where
  | skippingInvalidRecord (record : GoString)
  | errorReadingFile
  | errorInsertingBatch (batch : List Device)
  | uploaded
deriving DecidableEq

/-- `processBatch`, given the outcome of `db.Create(&batch)` (`true` when
its `Error` is nil): an error is logged, nothing else happens. -/
def processBatch (create : List Device → Bool) (batch : List Device) : List LogLine :=
  if create batch then [] else [LogLine.errorInsertingBatch batch]

/-- Where the reader goroutine stands: in its scan loop, after
`close(recordChannel)` and before the check of `scanner.Err()`, or returned. -/
inductive ReaderPc where
  | scan
  | report
  | done
deriving DecidableEq

/-- Where the batcher goroutine stands: at the head of its loop, at the send
of a full batch inside the loop, at the send of the remaining batch, at
`close(batchChannel)`, or returned. -/
inductive BatcherPc where
  | recv
  | sendFull
  | sendLast
  | closing
  | done
deriving DecidableEq

/-- Where a worker goroutine stands: at the head of its loop, holding a
non-empty batch before `processBatch` returns, or returned (after
`wg.Done()`). -/
inductive WorkerPc where
  | recv
  | process (batch : List Device)
  | done
deriving DecidableEq

/-- The state of a run of `uploadCSV` once the goroutines are started.
`taken`, `sent`, `received` and `calls` are histories: the records the
batcher has received, the batches it has sent, the batches the workers have
received (with the worker's index) and the calls of `db.Create` with their
outcome. -/
structure Pipeline where
  input : List GoString
  readFault : Bool
  readerPc : ReaderPc
  recordChannel : List GoString
  recordClosed : Bool
  taken : List GoString
  batch : List Device
  batcherPc : BatcherPc
  batchChannel : List (List Device)
  batchClosed : Bool
  sent : List (List Device)
  workers : List WorkerPc
  received : List (Nat × List Device)
  calls : List (List Device × Bool)
  wg : Nat
  log : List LogLine
  response : Option Response

/-- The goroutine that takes the next step. -/
inductive Goroutine where
  | reader
  | batcher
  | worker (i : Nat)
  | handler
deriving DecidableEq

/-- The next action of the reader: send the next line (blocked while
`recordChannel` is full), close the channel at the end of the scan, then log
the read error if there is one. -/
def readerStep (s : Pipeline) : Option Pipeline :=
  match s.readerPc with
  | ReaderPc.scan =>
    match s.input with
    | line :: rest =>
      if s.recordChannel.length < recordChannelCap then
        some { s with input := rest, recordChannel := s.recordChannel ++ [line] }
      else none
    | [] => some { s with recordClosed := true, readerPc := ReaderPc.report }
  | ReaderPc.report =>
    some { s with
      log := s.log ++ (if s.readFault then [LogLine.errorReadingFile] else []),
      readerPc := ReaderPc.done }
  | ReaderPc.done => none

/-- The next action of the batcher: receive a record and handle it (blocked
while `recordChannel` is empty and open), send a batch (blocked while
`batchChannel` is full), or close `batchChannel`. This is the loop of
`batcherStep` and `batcherRun` with each channel operation a step of its
own. -/
def batcherGo (s : Pipeline) : Option Pipeline :=
  match s.batcherPc with
  | BatcherPc.recv =>
    match s.recordChannel with
    | record :: rest =>
      match parseRecord record with
      | none =>
        some { s with
          recordChannel := rest, taken := s.taken ++ [record],
          log := s.log ++ [LogLine.skippingInvalidRecord record] }
      | some device =>
        some { s with
          recordChannel := rest, taken := s.taken ++ [record],
          batch := s.batch ++ [device],
          batcherPc :=
            if (s.batch ++ [device]).length ≥ chunkSize then BatcherPc.sendFull
            else BatcherPc.recv }
    | [] =>
      if s.recordClosed then
        some { s with
          batcherPc := if s.batch.length > 0 then BatcherPc.sendLast else BatcherPc.closing }
      else none
  | BatcherPc.sendFull =>
    if s.batchChannel.length < batchChannelCap then
      some { s with
        batchChannel := s.batchChannel ++ [s.batch], sent := s.sent ++ [s.batch],
        batch := [], batcherPc := BatcherPc.recv }
    else none
  | BatcherPc.sendLast =>
    if s.batchChannel.length < batchChannelCap then
      some { s with
        batchChannel := s.batchChannel ++ [s.batch], sent := s.sent ++ [s.batch],
        batcherPc := BatcherPc.closing }
    else none
  | BatcherPc.closing => some { s with batchClosed := true, batcherPc := BatcherPc.done }
  | BatcherPc.done => none

/-- The next action of worker `i`: receive a batch (blocked while
`batchChannel` is empty and open), call `processBatch` on it when it is not
empty, or leave the loop and call `wg.Done()` when the channel is closed and
drained. -/
def workerStep (create : List Device → Bool) (i : Nat) (s : Pipeline) : Option Pipeline :=
  match s.workers[i]? with
  | some WorkerPc.recv =>
    match s.batchChannel with
    | batch :: rest =>
      some { s with
        batchChannel := rest, received := s.received ++ [(i, batch)],
        workers := s.workers.set i (if batch.length > 0 then WorkerPc.process batch
          else WorkerPc.recv) }
    | [] =>
      if s.batchClosed then
        some { s with workers := s.workers.set i WorkerPc.done, wg := s.wg - 1 }
      else none
  | some (WorkerPc.process batch) =>
    some { s with
      calls := s.calls ++ [(batch, create batch)],
      log := s.log ++ processBatch create batch,
      workers := s.workers.set i WorkerPc.recv }
  | _ => none

/-- The handler after `wg.Wait()` (blocked while the counter is not 0): the
log line and the response. -/
def handlerStep (s : Pipeline) : Option Pipeline :=
  if s.wg = 0 ∧ s.response = none then
    some { s with log := s.log ++ [LogLine.uploaded], response := some uploadedResponse }
  else none

/-- One step of the goroutine `g`. -/
def step (create : List Device → Bool) (s : Pipeline) (g : Goroutine) : Option Pipeline :=
  match g with
  | Goroutine.reader => readerStep s
  | Goroutine.batcher => batcherGo s
  | Goroutine.worker i => workerStep create i s
  | Goroutine.handler => handlerStep s

/-- The state after a schedule, `none` when a goroutine of the schedule
cannot act at its turn. -/
def run (create : List Device → Bool) (s : Pipeline) : List Goroutine → Option Pipeline
  | [] => some s
  | g :: gs =>
    match step create s g with
    | none => none
    | some s1 => run create s1 gs

/-- The state when the handler reaches `wg.Wait()`: the wait group counts
the `numWorkers` workers, all goroutines are at their first instruction,
both channels are empty and open. `lines` are the lines the scanner returns
before it stops, `readFault` tells whether it stops on a read error. -/
def start (lines : List GoString) (readFault : Bool) : Pipeline :=
  { input := lines, readFault := readFault, readerPc := ReaderPc.scan,
    recordChannel := [], recordClosed := false, taken := [], batch := [],
    batcherPc := BatcherPc.recv, batchChannel := [], batchClosed := false, sent := [],
    workers := List.replicate numWorkers WorkerPc.recv, received := [], calls := [],
    wg := numWorkers, log := [], response := none }

/-- What the handler finds in the request: no file (`c.FormFile` fails), a
file that does not open, or a file the scanner reads `lines` from. -/
inductive Upload where
  | noFile
  | openFails
  | file (lines : List GoString) (readFault : Bool)

/-- `uploadCSV` under a schedule of its goroutines: the response sent, if
one is sent by the end of the schedule. -/
def uploadCSV (create : List Device → Bool) (u : Upload) (sched : List Goroutine) :
    Option Response :=
  match u with
  | Upload.noFile => some (respondWithError 400 "File is required")
  | Upload.openFails => some (respondWithError 500 "Failed to open file")
  | Upload.file lines readFault =>
    match run create (start lines readFault) sched with
    | none => none
    | some s => s.response

/-- The scenario of the specification. -/
def scenario : List GoString :=
  [utf8 "d1,phone,acme,x1,android,14,2024-01-01,2026-01-01,active,500",
   utf8 "badline",
   utf8 " d2,tablet,acme,x2,ios,17,2024-02-01,2026-02-01,active,abc"]

/-- A schedule that runs the scenario to its end. -/
def scenarioSchedule : List Goroutine :=
  [Goroutine.reader, Goroutine.batcher, Goroutine.reader, Goroutine.reader, Goroutine.reader,
   Goroutine.batcher, Goroutine.batcher, Goroutine.batcher, Goroutine.reader,
   Goroutine.batcher, Goroutine.worker 3, Goroutine.batcher, Goroutine.worker 3,
   Goroutine.worker 0, Goroutine.worker 1, Goroutine.worker 2, Goroutine.worker 3,
   Goroutine.worker 4, Goroutine.worker 5, Goroutine.worker 6, Goroutine.worker 7,
   Goroutine.worker 8, Goroutine.worker 9, Goroutine.handler]

/-! ## Vocabulary for the claims on prices -/

/-- The byte is one of `'0'` to `'9'`. -/
def isDigit (c : Byte) : Bool := decide (48 ≤ c.val ∧ c.val ≤ 57)

/-- The number a run of decimal digits denotes when read after `n`. -/
def decimalFrom (n : Nat) (ds : GoString) : Nat :=
  ds.foldl (fun a c => a * 10 + (c.val - 48)) n

/-- The number a run of decimal digits denotes (0 for the empty run). -/
def decimalValue (ds : GoString) : Nat := decimalFrom 0 ds

/-- The string without its leading sign (`'+'` or `'-'`), if it has one. -/
def unsignedPart (s : GoString) : GoString :=
  match s with
  | [] => []
  | c :: rest => if c = 43 ∨ c = 45 then rest else c :: rest

/-- The string starts with `'-'`. -/
def isNegative (s : GoString) : Bool :=
  match s with
  | [] => false
  | c :: _ => decide (c = 45)

/-- The string is a non-empty run of decimal digits. -/
def isDecimal (s : GoString) : Prop := s ≠ [] ∧ s.all isDigit = true

/-- The string is an optionally signed non-empty run of decimal digits. -/
def isSignedDecimal (s : GoString) : Prop := isDecimal (unsignedPart s)

instance (s : GoString) : Decidable (isDecimal s) :=
  inferInstanceAs (Decidable (s ≠ [] ∧ s.all isDigit = true))

instance (s : GoString) : Decidable (isSignedDecimal s) :=
  inferInstanceAs (Decidable (isDecimal (unsignedPart s)))

/-- A closed form of `strconv.Atoi`, proved equal to it below: with `v` the
number denoted by the digits that follow the optional sign up to the first
byte that is no digit, the result is the clamped bound with a range error
when `v` reaches `2 ^ 64`, else 0 with a syntax error when the digits are
missing or followed by another byte, else the signed number, clamped to the
`int64` range with a range error when it lies outside. -/
def atoiClosedForm (s : GoString) : Int × Option strconv.NumError :=
  let body := unsignedPart s
  let v := decimalValue (body.takeWhile isDigit)
  if v ≥ 2 ^ 64 then
    (if isNegative s then -2 ^ 63 else 2 ^ 63 - 1, some strconv.NumError.errRange)
  else if body = [] ∨ body.all isDigit = false then (0, some strconv.NumError.errSyntax)
  else if isNegative s then
    (if v > 2 ^ 63 then (-2 ^ 63, some strconv.NumError.errRange) else (-(v : Int), none))
  else
    (if v ≥ 2 ^ 63 then (2 ^ 63 - 1, some strconv.NumError.errRange) else ((v : Int), none))

/-! ## Vocabulary for the claims on the batcher and on a run -/

/-- The test of the batcher's loop: the record has at least 10 fields. -/
def accepted (record : GoString) : Bool :=
  decide (10 ≤ (strings.Split record 44).length)

/-- The invariant of the batcher's loop, with `devs` the devices parsed so
far: the sent batches followed by the open batch are `devs`, every sent
batch is full, and the open batch is not. -/
def BatcherInv (st : BatcherState) (devs : List Device) : Prop :=
  st.sent.flatten ++ st.batch = devs ∧ (∀ b ∈ st.sent, b.length = chunkSize) ∧
    st.batch.length < chunkSize

/-- The state of the batcher's loop after the records `rs`. -/
def loopState (rs : List GoString) : BatcherState :=
  rs.foldl batcherStep { batch := [], sent := [], skipped := [] }

/-- The batches the workers hold and have not yet passed to `db.Create`. -/
def processing (ws : List WorkerPc) : List (List Device) :=
  ws.filterMap (fun w => match w with
    | WorkerPc.process b => some b
    | _ => none)

/-- How the batcher goroutine of a run stands to the batcher's loop run on
the records taken so far. -/
def BatcherRel (lines : List GoString) (s : Pipeline) : Prop :=
  match s.batcherPc with
  | BatcherPc.recv =>
    (loopState s.taken).batch = s.batch ∧ (loopState s.taken).sent = s.sent
  | BatcherPc.sendFull =>
    (loopState s.taken).batch = [] ∧ (loopState s.taken).sent = s.sent ++ [s.batch] ∧
      0 < s.batch.length
  | BatcherPc.sendLast =>
    (loopState s.taken).batch = s.batch ∧ (loopState s.taken).sent = s.sent ∧
      0 < s.batch.length ∧ s.taken = lines
  | BatcherPc.closing => s.sent = batcher lines
  | BatcherPc.done => s.sent = batcher lines

/-- The invariant of a run of `uploadCSV` on `lines`. -/
structure Inv (create : List Device → Bool) (lines : List GoString) (s : Pipeline) : Prop where
  lines_eq : s.taken ++ s.recordChannel ++ s.input = lines
  closed_input : s.recordClosed = true → s.input = []
  reader_closed : s.readerPc = ReaderPc.scan ↔ s.recordClosed = false
  batcher_rel : BatcherRel lines s
  batch_closed : s.batchClosed = true ↔ s.batcherPc = BatcherPc.done
  delivered : s.sent = s.received.map Prod.snd ++ s.batchChannel
  sent_nonempty : ∀ b ∈ s.sent, 0 < b.length
  written : List.Perm (s.calls.map Prod.fst ++ processing s.workers) (s.received.map Prod.snd)
  outcomes : ∀ c ∈ s.calls, c.2 = create c.1
  workers_len : s.workers.length = numWorkers
  wg_count : s.wg + s.workers.countP (fun w => decide (w = WorkerPc.done)) = numWorkers
  exited : WorkerPc.done ∈ s.workers → s.batchClosed = true ∧ s.batchChannel = []
  responded : ∀ r, s.response = some r → s.wg = 0 ∧ r = uploadedResponse

/-- The steps the reader still has to take apart from its sends. -/
def ReaderPc.cost : ReaderPc → Nat
  | ReaderPc.scan => 2
  | ReaderPc.report => 1
  | ReaderPc.done => 0

/-- A bound on the steps the batcher still has to take apart from its
receives, with the steps its pending batch costs downstream. -/
def BatcherPc.cost : BatcherPc → Nat
  | BatcherPc.sendFull => 8
  | BatcherPc.recv => 5
  | BatcherPc.sendLast => 4
  | BatcherPc.closing => 1
  | BatcherPc.done => 0

/-- The steps a worker still has to take apart from its receives. -/
def WorkerPc.cost : WorkerPc → Nat
  | WorkerPc.process _ => 2
  | WorkerPc.recv => 1
  | WorkerPc.done => 0

/-- A bound on the number of steps a run can still take: every step of every
goroutine lowers it. -/
def Pipeline.cost (s : Pipeline) : Nat :=
  5 * s.input.length + 4 * s.recordChannel.length + s.readerPc.cost + s.batcherPc.cost
    + 2 * s.batchChannel.length + (s.workers.map WorkerPc.cost).sum
    + (match s.response with
      | none => 1
      | some _ => 0)

/-! ## Lemmas on `strings.Split` -/

theorem split_ne_nil (s : GoString) (sep : Byte) : strings.Split s sep ≠ [] := by
  induction s with
  | nil => simp [strings.Split]
  | cons c cs ih =>
    unfold strings.Split
    split
    · simp
    · cases h : strings.Split cs sep <;> simp

theorem split_length (s : GoString) (sep : Byte) :
    (strings.Split s sep).length = s.count sep + 1 := by
  induction s with
  | nil => simp [strings.Split]
  | cons c cs ih =>
    unfold strings.Split
    by_cases hc : c = sep
    · simp [hc, ih]
    · have hne := split_ne_nil cs sep
      cases h : strings.Split cs sep with
      | nil => exact absurd h hne
      | cons f fs =>
        rw [h] at ih
        have hcs : (c == sep) = false := by simpa using hc
        simp only [List.length_cons] at ih
        simp only [hc, if_false, List.length_cons, List.count_cons, hcs]
        simpa using ih

theorem split_append_sep (l e : GoString) (sep : Byte) :
    strings.Split (l ++ sep :: e) sep = strings.Split l sep ++ strings.Split e sep := by
  induction l with
  | nil => simp [strings.Split]
  | cons c cs ih =>
    by_cases hc : c = sep
    · simp [strings.Split, hc, ih]
    · have hne := split_ne_nil cs sep
      cases h : strings.Split cs sep with
      | nil => exact absurd h hne
      | cons f fs =>
        simp [strings.Split, hc, ih, h]

/-! ## Lemmas on the batcher -/

theorem parseRecord_eq_none_iff (l : GoString) :
    parseRecord l = none ↔ (strings.Split l 44).length < 10 := by
  unfold parseRecord
  by_cases h : (strings.Split l 44).length < 10 <;> simp [h]

theorem parseRecord_isSome_iff (l : GoString) :
    (parseRecord l).isSome = accepted l := by
  unfold parseRecord accepted
  by_cases h : (strings.Split l 44).length < 10
  · simp [h]
  · simp [h]
    omega

theorem batcherStep_inv (st : BatcherState) (devs : List Device) (r : GoString)
    (h : BatcherInv st devs) :
    BatcherInv (batcherStep st r) (devs ++ (parseRecord r).toList) := by
  obtain ⟨h1, h2, h3⟩ := h
  unfold batcherStep
  cases hp : parseRecord r with
  | none => simpa [BatcherInv] using ⟨h1, h2, h3⟩
  | some d =>
    by_cases hfull : (st.batch ++ [d]).length ≥ chunkSize
    · simp only [hfull, if_true]
      refine ⟨?_, ?_, ?_⟩
      · simp [← h1]
      · intro b hb
        simp only [List.mem_append, List.mem_singleton] at hb
        rcases hb with hb | hb
        · exact h2 b hb
        · subst hb
          simp only [List.length_append, List.length_singleton] at hfull ⊢
          omega
      · simp [chunkSize]
    · simp only [hfull, if_false]
      refine ⟨?_, h2, ?_⟩
      · simp [← h1]
      · show (st.batch ++ [d]).length < chunkSize
        omega

theorem batcher_foldl_inv (rs : List GoString) (st : BatcherState) (devs : List Device)
    (h : BatcherInv st devs) :
    BatcherInv (rs.foldl batcherStep st) (devs ++ rs.filterMap parseRecord) := by
  induction rs generalizing st devs with
  | nil => simpa using h
  | cons r rs ih =>
    have := ih _ _ (batcherStep_inv st devs r h)
    cases hp : parseRecord r <;> simpa [List.filterMap_cons, hp] using this

theorem batcher_loop_inv (rs : List GoString) :
    BatcherInv (rs.foldl batcherStep { batch := [], sent := [], skipped := [] })
      (rs.filterMap parseRecord) := by
  have := batcher_foldl_inv rs { batch := [], sent := [], skipped := [] } []
    ⟨by simp, by simp, by simp [chunkSize]⟩
  simpa using this

theorem length_flatten_of_full (L : List (List Device)) (n : Nat)
    (h : ∀ b ∈ L, b.length = n) : L.flatten.length = n * L.length := by
  induction L with
  | nil => simp
  | cons b L ih =>
    have hb := h b (List.mem_cons_self _ _)
    have := ih (fun x hx => h x (List.mem_cons_of_mem _ hx))
    simp [hb, this, Nat.mul_succ]
    omega

/-- The batches sent are the full batches of the loop, then the open batch
when it is not empty. -/
theorem batcher_eq (rs : List GoString) :
    ∃ full last, (∀ b ∈ full, b.length = chunkSize) ∧ last.length < chunkSize ∧
      full.flatten ++ last = rs.filterMap parseRecord ∧
      batcher rs = if last.length > 0 then full ++ [last] else full := by
  obtain ⟨h1, h2, h3⟩ := batcher_loop_inv rs
  refine ⟨_, _, h2, h3, h1, ?_⟩
  unfold batcher batcherRun
  simp only
  split <;> rfl

theorem filterMap_parseRecord (rs : List GoString) :
    rs.filterMap parseRecord
      = (rs.filter accepted).map (fun l => deviceOf (strings.Split l 44)) := by
  induction rs with
  | nil => rfl
  | cons r rs ih =>
    by_cases h : (strings.Split r 44).length < 10
    · have h1 : parseRecord r = none := (parseRecord_eq_none_iff r).2 h
      have h2 : accepted r = false := by simp [accepted, h]
      simp [List.filterMap_cons, h1, h2, ih]
    · have h1 : parseRecord r = some (deviceOf (strings.Split r 44)) := by
        simp [parseRecord, h]
      have h2 : accepted r = true := by simp [accepted]; omega
      simp [List.filterMap_cons, h1, h2, ih]

theorem batcher_skipped_foldl (rs : List GoString) (st : BatcherState) :
    (rs.foldl batcherStep st).skipped
      = st.skipped ++ rs.filter (fun l => !accepted l) := by
  induction rs generalizing st with
  | nil => simp
  | cons r rs ih =>
    rw [List.foldl_cons, ih]
    by_cases h : (strings.Split r 44).length < 10
    · have h1 : parseRecord r = none := (parseRecord_eq_none_iff r).2 h
      have h2 : accepted r = false := by simp [accepted, h]
      simp [batcherStep, h1, h2]
    · have h1 : parseRecord r = some (deviceOf (strings.Split r 44)) := by
        simp [parseRecord, h]
      have h2 : accepted r = true := by simp [accepted]; omega
      simp only [batcherStep, h1]
      split <;> simp [h2]

theorem batcher_flatten_eq (rs : List GoString) :
    (batcher rs).flatten = rs.filterMap parseRecord := by
  obtain ⟨full, last, _, _, h3, h4⟩ := batcher_eq rs
  rw [h4, ← h3]
  split
  · simp
  · have : last = [] := List.length_eq_zero.mp (by omega)
    simp [this]

/-! ## The claims on the batcher -/

/-- C1: with `a` the number of lines that have at least 10 fields, the
batcher sends `ceil(a / chunkSize)` batches (`chunkSize` is 1000); every
batch has between 1 and `chunkSize` devices, every batch but the last has
exactly `chunkSize`, and no batch is sent when no line is accepted (so
none for the empty input). -/
theorem batcher_batches (lines : List GoString) :
    chunkSize = 1000 ∧
    (batcher lines).length = ((lines.filter accepted).length + chunkSize - 1) / chunkSize ∧
    (∀ b ∈ batcher lines, 1 ≤ b.length ∧ b.length ≤ chunkSize) ∧
    (∀ b ∈ (batcher lines).dropLast, b.length = chunkSize) ∧
    ((lines.filter accepted).length = 0 → batcher lines = []) ∧
    batcher [] = [] := by
  obtain ⟨full, last, h1, h2, h3, h4⟩ := batcher_eq lines
  have hlen : (lines.filter accepted).length = chunkSize * full.length + last.length := by
    have := congrArg List.length h3
    rw [filterMap_parseRecord, List.length_map, List.length_append,
      length_flatten_of_full full chunkSize h1] at this
    omega
  refine ⟨rfl, ?_, ?_, ?_, ?_, by decide⟩
  · rw [h4, hlen]
    unfold chunkSize at *
    split
    · rw [List.length_append, List.length_singleton]
      omega
    · omega
  · intro b hb
    rw [h4] at hb
    split at hb
    · simp only [List.mem_append, List.mem_singleton] at hb
      rcases hb with hb | hb
      · have := h1 b hb
        unfold chunkSize at *
        omega
      · subst hb
        omega
    · have := h1 b hb
      unfold chunkSize at *
      omega
  · intro b hb
    rw [h4] at hb
    split at hb
    · rw [List.dropLast_concat] at hb
      exact h1 b hb
    · exact h1 b (List.mem_of_mem_dropLast hb)
  · intro h0
    rw [h4]
    have hl : last.length = 0 := by omega
    have hf : full.length = 0 := by
      unfold chunkSize at hlen
      omega
    simp [hl, List.length_eq_zero.mp hf]

set_option maxRecDepth 100000 in
/-- C1, on 2500 copies of an accepted line: three batches, of 1000, 1000
and 500 devices. -/
theorem batcher_batches_witness :
    (batcher (List.replicate 2500
      (utf8 "d1,phone,acme,x1,android,14,2024-01-01,2026-01-01,active,500"))).map List.length
      = [1000, 1000, 500] := by
  have hacc : accepted (utf8 "d1,phone,acme,x1,android,14,2024-01-01,2026-01-01,active,500")
      = true := by decide
  generalize utf8 "d1,phone,acme,x1,android,14,2024-01-01,2026-01-01,active,500" = line at hacc
  have hfilter : (List.replicate 2500 line).filter accepted = List.replicate 2500 line := by
    rw [List.filter_eq_self]
    intro a ha
    rw [List.eq_of_mem_replicate ha]
    exact hacc
  obtain ⟨_, hlen, _, hfull, _, _⟩ := batcher_batches (List.replicate 2500 line)
  have hsum := congrArg List.length (batcher_flatten_eq (List.replicate 2500 line))
  rw [filterMap_parseRecord, hfilter, List.length_map, List.length_replicate,
    List.length_flatten] at hsum
  rw [hfilter, List.length_replicate] at hlen
  simp only [chunkSize] at hlen hfull
  norm_num at hlen
  generalize batcher (List.replicate 2500 line) = bs at hlen hfull hsum
  match bs, hlen with
  | [a, b, c], _ =>
    have ha := hfull a (by simp)
    have hb := hfull b (by simp)
    simp only [List.map_cons, List.map_nil, List.sum_cons, List.sum_nil] at hsum ⊢
    rw [ha, hb] at hsum ⊢
    have hc : c.length = 500 := by omega
    rw [hc]

/-- C2: the batches sent, concatenated in emission order, are the devices
built from the accepted lines in input order; so the batches hold as many
devices as there are accepted lines. -/
theorem batcher_preserves_devices (lines : List GoString) :
    (batcher lines).flatten
      = (lines.filter accepted).map (fun l => deviceOf (strings.Split l 44)) ∧
    ((batcher lines).map List.length).sum = (lines.filter accepted).length := by
  have h := batcher_flatten_eq lines
  rw [filterMap_parseRecord] at h
  refine ⟨h, ?_⟩
  rw [← List.length_flatten, h, List.length_map]

/-- C3: a line is rejected exactly when it splits into fewer than 10 fields,
that is when it has fewer than 9 commas; the rejected lines are the ones
logged as skipped, no device of a batch comes from one, and the batches are
those of the input with the rejected lines deleted. The line `badline` is
rejected. -/
theorem rejected_lines_dropped (lines : List GoString) :
    (∀ l, parseRecord l = none ↔ (strings.Split l 44).length < 10) ∧
    (∀ l, (strings.Split l 44).length < 10 ↔ l.count 44 < 9) ∧
    (batcherRun lines).skipped = lines.filter (fun l => !accepted l) ∧
    (∀ b ∈ batcher lines, ∀ d ∈ b, ∃ l ∈ lines,
      10 ≤ (strings.Split l 44).length ∧ parseRecord l = some d) ∧
    batcher lines = batcher (lines.filter accepted) ∧
    parseRecord (utf8 "badline") = none := by
  refine ⟨parseRecord_eq_none_iff, ?_, ?_, ?_, ?_, by decide⟩
  · intro l
    rw [split_length]
    omega
  · unfold batcherRun
    simp only
    split <;> simp [batcher_skipped_foldl]
  · intro b hb d hd
    have hmem : d ∈ (batcher lines).flatten := List.mem_flatten.2 ⟨b, hb, hd⟩
    rw [batcher_flatten_eq, List.mem_filterMap] at hmem
    obtain ⟨l, hl, hp⟩ := hmem
    refine ⟨l, hl, ?_, hp⟩
    by_contra hlt
    rw [(parseRecord_eq_none_iff l).2 (by omega)] at hp
    cases hp
  · have key : ∀ (rs : List GoString) (st : BatcherState),
        ((rs.filter accepted).foldl batcherStep st).batch = (rs.foldl batcherStep st).batch ∧
        ((rs.filter accepted).foldl batcherStep st).sent = (rs.foldl batcherStep st).sent := by
      intro rs
      induction rs with
      | nil => intro st; exact ⟨rfl, rfl⟩
      | cons r rs ih =>
        intro st
        by_cases h : accepted r = true
        · rw [List.filter_cons_of_pos h]
          exact ih _
        · have h1 : parseRecord r = none := by
            have := parseRecord_isSome_iff r
            cases hp : parseRecord r with
            | none => rfl
            | some d => rw [hp] at this; exact absurd this.symm h
          rw [List.filter_cons_of_neg h, List.foldl_cons]
          have hstep : batcherStep st r = { st with skipped := st.skipped ++ [r] } := by
            simp [batcherStep, h1]
          rw [hstep]
          obtain ⟨a1, a2⟩ := ih st
          obtain ⟨b1, b2⟩ := ih { st with skipped := st.skipped ++ [r] }
          have c : ∀ (ts : List GoString) (s1 s2 : BatcherState),
              s1.batch = s2.batch → s1.sent = s2.sent →
              (ts.foldl batcherStep s1).batch = (ts.foldl batcherStep s2).batch ∧
              (ts.foldl batcherStep s1).sent = (ts.foldl batcherStep s2).sent := by
            intro ts
            induction ts with
            | nil => intro s1 s2 e1 e2; exact ⟨e1, e2⟩
            | cons t ts iht =>
              intro s1 s2 e1 e2
              simp only [List.foldl_cons]
              apply iht
              · unfold batcherStep
                cases parseRecord t with
                | none => exact e1
                | some d => simp only [e1]; split <;> rfl
              · unfold batcherStep
                cases parseRecord t with
                | none => exact e2
                | some d => simp only [e1, e2]; split <;> rfl
          obtain ⟨c1, c2⟩ := c rs st { st with skipped := st.skipped ++ [r] } rfl rfl
          exact ⟨a1.trans c1, a2.trans c2⟩
    obtain ⟨k1, k2⟩ := key lines { batch := [], sent := [], skipped := [] }
    unfold batcher batcherRun
    simp only [k1, k2]
    split <;> simp [k1, k2]

set_option maxRecDepth 100000 in
/-- C3, on the scenario: `badline` is the one line skipped, and the one
batch holds the two devices of the other lines, with prices 500 and 0. -/
theorem rejected_lines_dropped_witness :
    (batcherRun scenario).skipped = [utf8 "badline"] ∧
    batcher scenario = batcher (scenario.filter accepted) ∧
    scenario.filter accepted
      = [utf8 "d1,phone,acme,x1,android,14,2024-01-01,2026-01-01,active,500",
         utf8 " d2,tablet,acme,x2,ios,17,2024-02-01,2026-02-01,active,abc"] ∧
    (batcher scenario).map (List.map Device.Price) = [[500, 0]] := by
  obtain ⟨_, _, h3, _, h5, _⟩ := rejected_lines_dropped scenario
  refine ⟨?_, h5, by decide, by decide⟩
  rw [h3]
  decide

/-! ## Lemmas on `strconv.Atoi` -/

theorem byte_sub_gt (c : Byte) : (c - 48 > 9) ↔ isDigit c = false := by
  simp only [isDigit, Fin.lt_def, Fin.sub_def, decide_eq_false_iff_not]
  have := c.isLt
  simp
  omega

theorem byte_sub_val (c : Byte) (h : isDigit c = true) :
    ((c - 48 : Byte).val : Nat) = c.val - 48 := by
  simp only [isDigit, decide_eq_true_eq] at h
  simp only [Fin.sub_def]
  have := c.isLt
  omega

theorem toInt64_of_range (x : Int) (h1 : -9223372036854775808 ≤ x)
    (h2 : x < 9223372036854775808) : strconv.toInt64 x = x := by
  unfold strconv.toInt64
  norm_num
  omega

theorem digitOf_of_isDigit (c : Byte) (h : isDigit c = true) :
    strconv.digitOf c = some (c.val - 48) ∧ c.val - 48 < 10 := by
  simp only [isDigit, decide_eq_true_eq] at h
  refine ⟨by simp [strconv.digitOf, h], by omega⟩

theorem digitOf_of_not_isDigit (c : Byte) (h : isDigit c = false) :
    strconv.digitOf c = none ∨ ∃ d, strconv.digitOf c = some d ∧ d ≥ 10 := by
  simp only [isDigit, decide_eq_false_iff_not] at h
  unfold strconv.digitOf
  rw [if_neg h]
  split
  · exact Or.inr ⟨_, rfl, by omega⟩
  · exact Or.inl rfl

theorem decimalFrom_cons (n : Nat) (c : Byte) (cs : GoString) :
    decimalFrom n (c :: cs) = decimalFrom (n * 10 + (c.val - 48)) cs := rfl

theorem le_decimalFrom (ds : GoString) (n : Nat) : n ≤ decimalFrom n ds := by
  induction ds generalizing n with
  | nil => exact Nat.le_refl _
  | cons c cs ih =>
    rw [decimalFrom_cons]
    have := ih (n * 10 + (c.val - 48))
    omega

theorem decimalFrom_lt (ds : GoString) (n k : Nat) (hd : ds.all isDigit = true)
    (hn : n < 10 ^ k) : decimalFrom n ds < 10 ^ (k + ds.length) := by
  induction ds generalizing n k with
  | nil => simpa [decimalFrom] using hn
  | cons c cs ih =>
    simp only [List.all_cons, Bool.and_eq_true] at hd
    have hc := hd.1
    simp only [isDigit, decide_eq_true_eq] at hc
    rw [decimalFrom_cons]
    have := ih (n * 10 + (c.val - 48)) (k + 1) hd.2 (by rw [pow_succ]; omega)
    simpa [Nat.add_assoc, Nat.add_comm 1] using this

theorem takeWhile_all (p : Byte → Bool) (s : GoString) : (s.takeWhile p).all p = true := by
  induction s with
  | nil => rfl
  | cons c cs ih =>
    by_cases h : p c = true <;> simp [List.takeWhile_cons, h, ih]

theorem takeWhile_of_all (p : Byte → Bool) (s : GoString) (h : s.all p = true) :
    s.takeWhile p = s := by
  induction s with
  | nil => rfl
  | cons c cs ih =>
    simp only [List.all_cons, Bool.and_eq_true] at h
    simp [List.takeWhile_cons, h.1, ih h.2]

/-- What the loop of `ParseUint` returns, started at `n`: a range error as
soon as the digits read so far reach `2 ^ 64`, else a syntax error at the
first byte that is no digit, else the number. -/
theorem parseUintLoop_spec (s : GoString) (n : Nat) (hn : n < 2 ^ 64) :
    strconv.parseUintLoop 10 (strconv.maxUint64 / 10 + 1) (2 ^ 64 - 1) s n =
      if decimalFrom n (s.takeWhile isDigit) ≥ 2 ^ 64 then
        (2 ^ 64 - 1, some strconv.NumError.errRange)
      else if s.all isDigit = true then (decimalFrom n s, none)
      else (0, some strconv.NumError.errSyntax) := by
  induction s generalizing n with
  | nil =>
    norm_num at hn
    have : ¬ 18446744073709551616 ≤ n := by omega
    simp [strconv.parseUintLoop, decimalFrom, this]
  | cons c cs ih =>
    unfold strconv.parseUintLoop
    cases hc : isDigit c with
    | false =>
      norm_num at hn
      have hnot : ¬ 18446744073709551616 ≤ n := by omega
      rcases digitOf_of_not_isDigit c hc with h | ⟨d, h, hd⟩
      · simp [h, hc, List.takeWhile_cons, decimalFrom, hnot]
      · simp [h, hc, List.takeWhile_cons, decimalFrom, hnot, hd]
    | true =>
      obtain ⟨h, hd⟩ := digitOf_of_isDigit c hc
      have hmono := le_decimalFrom (cs.takeWhile isDigit) (n * 10 + (c.val - 48))
      simp only [h, List.takeWhile_cons, hc, if_true, decimalFrom_cons, List.all_cons,
        Bool.true_and]
      rw [if_neg (by omega)]
      norm_num [strconv.maxUint64] at hn hmono ⊢
      by_cases hcut : 1844674407370955162 ≤ n
      · rw [if_pos hcut, if_pos (by omega)]
      · rw [if_neg hcut]
        have e10 : n * 10 % 18446744073709551616 = n * 10 := Nat.mod_eq_of_lt (by omega)
        rw [e10]
        by_cases hov : n * 10 + (c.val - 48) < 18446744073709551616
        · have e1 : (n * 10 + (c.val - 48)) % 18446744073709551616 = n * 10 + (c.val - 48) :=
            Nat.mod_eq_of_lt hov
          rw [e1, if_neg (by omega)]
          have := ih (n * 10 + (c.val - 48)) (by norm_num; exact hov)
          norm_num [strconv.maxUint64] at this
          exact this
        · rw [if_pos (by omega), if_pos (by omega)]

theorem parseUint_spec (s : GoString) :
    strconv.ParseUint s =
      if decimalValue (s.takeWhile isDigit) ≥ 2 ^ 64 then
        (2 ^ 64 - 1, some strconv.NumError.errRange)
      else if s = [] ∨ s.all isDigit = false then (0, some strconv.NumError.errSyntax)
      else (decimalValue s, none) := by
  unfold strconv.ParseUint
  by_cases hs : s = []
  · subst hs
    simp [decimalValue, decimalFrom]
  · rw [if_neg hs]
    have := parseUintLoop_spec s 0 (by norm_num)
    simp only [strconv.intSize]
    rw [this]
    unfold decimalValue
    cases hall : s.all isDigit <;> simp [hs]

/-- The part of `ParseInt` after the call of `ParseUint`, as a function of
what `ParseUint` returned and of the sign. -/
theorem parseInt_cons (c : Byte) (rest : GoString) :
    strconv.ParseInt (c :: rest) =
      if (strconv.ParseUint (unsignedPart (c :: rest))).2 = some strconv.NumError.errSyntax then
        (0, some strconv.NumError.errSyntax)
      else if isNegative (c :: rest) = false ∧
          (strconv.ParseUint (unsignedPart (c :: rest))).1 ≥ 2 ^ 63 then
        (2 ^ 63 - 1, some strconv.NumError.errRange)
      else if isNegative (c :: rest) = true ∧
          (strconv.ParseUint (unsignedPart (c :: rest))).1 > 2 ^ 63 then
        (-2 ^ 63, some strconv.NumError.errRange)
      else
        (if isNegative (c :: rest) = true then
          strconv.toInt64 (-strconv.toInt64 ((strconv.ParseUint (unsignedPart (c :: rest))).1 : Int))
         else strconv.toInt64 ((strconv.ParseUint (unsignedPart (c :: rest))).1 : Int), none) := by
  have hbody : (if c = 43 then rest else if c = 45 then rest else c :: rest)
      = unsignedPart (c :: rest) := by
    unfold unsignedPart
    by_cases h1 : c = 43 <;> by_cases h2 : c = 45 <;> simp [h1, h2]
  have hneg : (if c = 43 then false else if c = 45 then true else false)
      = isNegative (c :: rest) := by
    unfold isNegative
    by_cases h1 : c = 43
    · subst h1; simp
    · by_cases h2 : c = 45 <;> simp [h1, h2]
  unfold strconv.ParseInt
  simp only [hbody, hneg, strconv.intSize]
  have e1 : strconv.toInt64 (((2 ^ (64 - 1) : Nat) : Int) - 1) = 2 ^ 63 - 1 := by
    unfold strconv.toInt64; norm_num
  have e2 : strconv.toInt64 (-((2 ^ (64 - 1) : Nat) : Int)) = -2 ^ 63 := by
    unfold strconv.toInt64; norm_num
  rw [e1, e2]

theorem parseInt_spec (s : GoString) : strconv.ParseInt s = atoiClosedForm s := by
  cases s with
  | nil => simp [strconv.ParseInt, atoiClosedForm, unsignedPart, decimalValue, decimalFrom]
  | cons c rest =>
    rw [parseInt_cons]
    unfold atoiClosedForm
    simp only
    generalize unsignedPart (c :: rest) = body
    generalize isNegative (c :: rest) = neg
    have hPU := parseUint_spec body
    generalize hvdef : decimalValue (body.takeWhile isDigit) = v at hPU ⊢
    by_cases hbig : v ≥ 2 ^ 64
    · rw [if_pos hbig] at hPU
      rw [if_pos hbig, hPU]
      norm_num
      cases neg <;> simp
    · rw [if_neg hbig] at hPU
      rw [if_neg hbig]
      by_cases hsyn : body = [] ∨ body.all isDigit = false
      · rw [if_pos hsyn] at hPU
        rw [if_pos hsyn, hPU]
        simp
      · rw [if_neg hsyn] at hPU
        rw [if_neg hsyn, hPU]
        have hall : body.all isDigit = true := by
          cases h : body.all isDigit
          · exact absurd (Or.inr h) hsyn
          · rfl
        have hval : decimalValue body = v := by
          rw [← hvdef, takeWhile_of_all _ _ hall]
        rw [hval]
        norm_num at hbig ⊢
        cases neg
        · simp only [Bool.false_eq_true, if_false, true_and, false_and]
          by_cases h63 : 9223372036854775808 ≤ v
          · simp [h63]
          · simp only [h63, if_false]
            rw [toInt64_of_range _ (by omega) (by omega)]
            simp
        · simp only [if_true, true_and, Bool.true_eq_false, false_and, if_false]
          by_cases h63 : 9223372036854775808 < v
          · simp [h63]
          · simp only [h63, if_false]
            by_cases heq : v = 9223372036854775808
            · subst heq
              simp [strconv.toInt64]
            · rw [toInt64_of_range (v : Int) (by omega) (by omega),
                toInt64_of_range _ (by omega) (by omega)]
              simp

theorem atoiFastLoop_spec (s : GoString) (m k : Nat) (hm : m < 10 ^ k)
    (hk : k + s.length ≤ 18) :
    strconv.atoiFastLoop s (m : Int) =
      if s.all isDigit = true then some ((decimalFrom m s : Nat) : Int) else none := by
  induction s generalizing m k with
  | nil => simp [strconv.atoiFastLoop, decimalFrom]
  | cons c cs ih =>
    unfold strconv.atoiFastLoop
    simp only [List.length_cons] at hk
    cases hc : isDigit c with
    | false =>
      have := (byte_sub_gt c).2 hc
      simp [this, hc]
    | true =>
      have hgt : ¬ (c - 48 > 9) := by
        rw [byte_sub_gt, hc]; simp
      have hval := byte_sub_val c hc
      have hlt : c.val - 48 < 10 := (digitOf_of_isDigit c hc).2
      have hpow : 10 ^ k ≤ 10 ^ 17 := Nat.pow_le_pow_right (by norm_num) (by omega)
      norm_num at hpow
      have hm' : m * 10 + (c.val - 48) < 10 ^ (k + 1) := by rw [pow_succ]; omega
      simp only [hgt, if_false, List.all_cons, hc, Bool.true_and, decimalFrom_cons]
      rw [toInt64_of_range ((m : Int) * 10) (by omega) (by omega), hval,
        toInt64_of_range _ (by omega) (by omega)]
      have := ih (m * 10 + (c.val - 48)) (k + 1) hm' (by omega)
      rw [← this]
      congr 1

theorem atoiClosedForm_range (s : GoString) :
    -2 ^ 63 ≤ (atoiClosedForm s).1 ∧ (atoiClosedForm s).1 < 2 ^ 63 := by
  unfold atoiClosedForm
  simp only
  generalize decimalValue ((unsignedPart s).takeWhile isDigit) = v
  norm_num
  split_ifs <;> norm_num <;> omega

theorem unsignedPart_length_le (s : GoString) : (unsignedPart s).length ≤ s.length := by
  cases s with
  | nil => simp [unsignedPart]
  | cons c rest =>
    simp only [unsignedPart]
    split <;> simp

theorem length_takeWhile_le_length (p : Byte → Bool) (s : GoString) :
    (s.takeWhile p).length ≤ s.length := by
  induction s with
  | nil => simp
  | cons c cs ih =>
    rw [List.takeWhile_cons]
    split <;> simp
    omega

/-- The model of `strconv.Atoi` (fast path and `ParseInt`) agrees with the
closed form on every string. -/
theorem atoi_spec (s : GoString) : strconv.Atoi s = atoiClosedForm s := by
  unfold strconv.Atoi
  have h32 : ¬ ((64 : Nat) = 32) := by decide
  simp only [strconv.intSize, true_and, h32, false_and, false_or]
  by_cases hlen : 0 < s.length ∧ s.length < 19
  · rw [if_pos hlen]
    cases s with
    | nil => simp at hlen
    | cons c0 rest =>
      simp only [List.length_cons] at hlen
      have hbody : (if (decide (c0 = 45 ∨ c0 = 43)) = true then rest else c0 :: rest)
          = unsignedPart (c0 :: rest) := by
        unfold unsignedPart
        by_cases h1 : c0 = 43 <;> by_cases h2 : c0 = 45 <;> simp [h1, h2]
      have hneg : isNegative (c0 :: rest) = decide (c0 = 45) := rfl
      have hblen := unsignedPart_length_le (c0 :: rest)
      simp only [List.length_cons] at hblen
      simp only [hbody]
      unfold atoiClosedForm
      simp only [hneg]
      have hfast := atoiFastLoop_spec (unsignedPart (c0 :: rest)) 0 0 (by norm_num) (by omega)
      simp only [Nat.cast_zero] at hfast
      rw [hfast]
      have hvlt : decimalValue ((unsignedPart (c0 :: rest)).takeWhile isDigit)
          < 1000000000000000000 := by
        have hpre := length_takeWhile_le_length isDigit (unsignedPart (c0 :: rest))
        have hv := decimalFrom_lt _ 0 0 (takeWhile_all isDigit (unsignedPart (c0 :: rest)))
          (by norm_num)
        have hpow : 10 ^ (0 + ((unsignedPart (c0 :: rest)).takeWhile isDigit).length)
            ≤ 10 ^ 18 := Nat.pow_le_pow_right (by norm_num) (by omega)
        have e18 : (10 : Nat) ^ 18 = 1000000000000000000 := by norm_num
        rw [e18] at hpow
        exact Nat.lt_of_lt_of_le hv hpow
      generalize hb : unsignedPart (c0 :: rest) = body at *
      generalize hvd : decimalValue (body.takeWhile isDigit) = v at *
      have hnb : ¬ v ≥ 2 ^ 64 := by norm_num; omega
      rw [if_neg hnb]
      by_cases hempty : body = []
      · have hs : decide (c0 = 45 ∨ c0 = 43) = true := by
          by_contra hns
          rw [← hb] at hempty
          unfold unsignedPart at hempty
          simp only [Bool.not_eq_true, decide_eq_false_iff_not] at hns
          have : ¬ (c0 = 43 ∨ c0 = 45) := fun h => hns (Or.symm h)
          simp [this] at hempty
        simp [hempty, hs]
      · have hlen1 : ¬ body.length < 1 := by
          cases body with
          | nil => exact absurd rfl hempty
          | cons _ _ => simp
        cases hall : body.all isDigit with
        | false => simp [hlen1, hempty]
        | true =>
          have hval : decimalFrom 0 body = v := by
            rw [← hvd, takeWhile_of_all _ _ hall]; rfl
          simp only [hlen1, and_false, if_false, if_true, hempty, false_or, hval,
            Bool.true_eq_false]
          by_cases hc : c0 = 45
          · simp only [hc, decide_True, if_true]
            have h1 : ¬ v > 2 ^ 63 := by norm_num; omega
            rw [if_neg h1, toInt64_of_range _ (by omega) (by omega)]
          · simp only [hc, decide_False, if_false, Bool.false_eq_true]
            have h1 : ¬ v ≥ 2 ^ 63 := by norm_num; omega
            rw [if_neg h1]
  · rw [if_neg hlen, parseInt_spec]
    obtain ⟨h1, h2⟩ := atoiClosedForm_range s
    norm_num at h1 h2
    rw [toInt64_of_range _ h1 h2]

theorem atoiSafe_eq (s : GoString) : atoiSafe s = (atoiClosedForm s).1 := by
  unfold atoiSafe
  rw [atoi_spec]

theorem decimalValue_takeWhile_of_all (s : GoString) (h : s.all isDigit = true) :
    decimalValue (s.takeWhile isDigit) = decimalValue s := by
  rw [takeWhile_of_all _ _ h]

/-- A run of digits, with or without a leading `'+'`: the value, clamped
to `2 ^ 63 - 1`. -/
theorem atoiSafe_nonneg (s : GoString) (hneg : isNegative s = false)
    (hd : isDecimal (unsignedPart s)) :
    atoiSafe s = min (decimalValue (unsignedPart s) : Int) (2 ^ 63 - 1) := by
  obtain ⟨hne, hall⟩ := hd
  rw [atoiSafe_eq]
  unfold atoiClosedForm
  simp only [decimalValue_takeWhile_of_all _ hall, hneg, hne, hall, false_or,
    Bool.false_eq_true, if_false, Bool.true_eq_false]
  generalize decimalValue (unsignedPart s) = v
  norm_num
  split_ifs <;> simp only <;> omega

/-- A `'-'` and a run of digits: minus the value, clamped to `-2 ^ 63`. -/
theorem atoiSafe_neg (s : GoString) (hneg : isNegative s = true)
    (hd : isDecimal (unsignedPart s)) :
    atoiSafe s = max (-(decimalValue (unsignedPart s) : Int)) (-2 ^ 63) := by
  obtain ⟨hne, hall⟩ := hd
  rw [atoiSafe_eq]
  unfold atoiClosedForm
  simp only [decimalValue_takeWhile_of_all _ hall, hneg, hne, hall, false_or,
    if_true, Bool.true_eq_false, if_false]
  generalize decimalValue (unsignedPart s) = v
  norm_num
  split_ifs <;> simp only <;> omega

/-- A string that is no optionally signed run of digits, whose digits before
the offending byte stay below `2 ^ 64`: 0. -/
theorem atoiSafe_bad (s : GoString) (hbad : ¬ isSignedDecimal s)
    (hv : decimalValue ((unsignedPart s).takeWhile isDigit) < 2 ^ 64) :
    atoiSafe s = 0 := by
  rw [atoiSafe_eq]
  unfold atoiClosedForm
  simp only
  rw [if_neg (by omega)]
  have : unsignedPart s = [] ∨ (unsignedPart s).all isDigit = false := by
    by_contra hcon
    apply hbad
    refine ⟨fun h => hcon (Or.inl h), ?_⟩
    cases h : (unsignedPart s).all isDigit
    · exact absurd (Or.inr h) hcon
    · rfl
  rw [if_pos this]

theorem getElem?_eq_some_getD (l : List GoString) (i : Nat) (h : i < l.length) :
    l[i]? = some (l.getD i []) := by
  rw [List.getD_eq_getElem?_getD, List.getElem?_eq_getElem h]
  rfl

theorem deviceOf_take (l : List GoString) : deviceOf (l.take 10) = deviceOf l := by
  simp [deviceOf, List.getD_eq_getElem?_getD, List.getElem?_take]

theorem parseRecord_of_accepted (line : GoString) (h : 10 ≤ (strings.Split line 44).length) :
    parseRecord line = some (deviceOf (strings.Split line 44)) := by
  unfold parseRecord
  simp only
  rw [if_neg (by omega)]

/-! ## The claims on a record's fields and price -/

/-- C4 (as stated, refuted): the price field `-1` does not parse as an
unsigned decimal integer (it is no run of digits), yet the line is accepted
with a price that is not 0. -/
theorem price_of_minus_one_not_zero :
    ¬ isDecimal (utf8 "-1") ∧
    (parseRecord (utf8 "d1,phone,acme,x1,android,14,2024-01-01,2026-01-01,active,-1")).map
      Device.Price = some 18446744073709551615 := by
  decide

/-- C4 (amended): a line with at least 10 fields is accepted whatever its
price field; and when field 9 is not an optionally signed non-empty run of
decimal digits, and the digits before its first other byte (after the sign)
denote a number below `2 ^ 64`, the device has price 0. -/
theorem price_zero_on_bad_field (line : GoString)
    (h : 10 ≤ (strings.Split line 44).length) :
    ∃ d, parseRecord line = some d ∧
      (¬ isSignedDecimal ((strings.Split line 44).getD 9 []) →
        decimalValue ((unsignedPart ((strings.Split line 44).getD 9 [])).takeWhile isDigit)
          < 2 ^ 64 →
        d.Price = 0) := by
  refine ⟨_, parseRecord_of_accepted line h, ?_⟩
  intro hbad hv
  show strconv.toUint64 (atoiSafe _) = 0
  rw [atoiSafe_bad _ hbad hv]
  rfl

set_option maxRecDepth 100000 in
/-- C4, at the third line of the scenario: its price field `abc` gives
price 0. -/
theorem price_zero_on_bad_field_witness :
    10 ≤ (strings.Split
      (utf8 " d2,tablet,acme,x2,ios,17,2024-02-01,2026-02-01,active,abc") 44).length ∧
    ∃ d, parseRecord (utf8 " d2,tablet,acme,x2,ios,17,2024-02-01,2026-02-01,active,abc")
        = some d ∧ d.Price = 0 := by
  refine ⟨by decide, ?_⟩
  obtain ⟨d, hd, hp⟩ := price_zero_on_bad_field
    (utf8 " d2,tablet,acme,x2,ios,17,2024-02-01,2026-02-01,active,abc") (by decide)
  exact ⟨d, hd, hp (by decide) (by decide)⟩

/-- C5: for a line with at least 10 fields, the device has `ID` 0 and its
nine string attributes are fields 0 to 8 of the line, byte for byte; fields
after index 9 have no effect: a line with the same first 10 fields, and the
line with more text appended after a comma, give the same device. -/
theorem device_fields_verbatim (line : GoString)
    (h : 10 ≤ (strings.Split line 44).length) :
    ∃ d, parseRecord line = some d ∧ d.ID = 0 ∧
      (strings.Split line 44)[0]? = some d.DeviceName ∧
      (strings.Split line 44)[1]? = some d.DeviceType ∧
      (strings.Split line 44)[2]? = some d.Brand ∧
      (strings.Split line 44)[3]? = some d.Model ∧
      (strings.Split line 44)[4]? = some d.Os ∧
      (strings.Split line 44)[5]? = some d.OsVersion ∧
      (strings.Split line 44)[6]? = some d.PurchaseDate ∧
      (strings.Split line 44)[7]? = some d.WarrantyEnd ∧
      (strings.Split line 44)[8]? = some d.Status ∧
      (∀ line2, (strings.Split line2 44).take 10 = (strings.Split line 44).take 10 →
        parseRecord line2 = some d) ∧
      (∀ extra, parseRecord (line ++ 44 :: extra) = some d) := by
  have hsame : ∀ line2, (strings.Split line2 44).take 10 = (strings.Split line 44).take 10 →
      parseRecord line2 = some (deviceOf (strings.Split line 44)) := by
    intro line2 h2
    have hlen : 10 ≤ (strings.Split line2 44).length := by
      have := congrArg List.length h2
      simp only [List.length_take] at this
      omega
    rw [parseRecord_of_accepted line2 hlen, ← deviceOf_take, h2, deviceOf_take]
  refine ⟨_, parseRecord_of_accepted line h, rfl,
    getElem?_eq_some_getD _ 0 (by omega), getElem?_eq_some_getD _ 1 (by omega),
    getElem?_eq_some_getD _ 2 (by omega), getElem?_eq_some_getD _ 3 (by omega),
    getElem?_eq_some_getD _ 4 (by omega), getElem?_eq_some_getD _ 5 (by omega),
    getElem?_eq_some_getD _ 6 (by omega), getElem?_eq_some_getD _ 7 (by omega),
    getElem?_eq_some_getD _ 8 (by omega), hsame, ?_⟩
  intro extra
  apply hsame
  rw [split_append_sep, List.take_append_of_le_length h]

set_option maxRecDepth 100000 in
/-- C5, at the third line of the scenario: the leading space of ` d2` is
kept. -/
theorem device_fields_verbatim_witness :
    ∃ d, parseRecord (utf8 " d2,tablet,acme,x2,ios,17,2024-02-01,2026-02-01,active,abc")
        = some d ∧ d.ID = 0 ∧ d.DeviceName = utf8 " d2" ∧ d.DeviceType = utf8 "tablet" ∧
      d.Status = utf8 "active" := by
  obtain ⟨d, hd, hid, h0, h1, _, _, _, _, _, _, h8, _⟩ := device_fields_verbatim
    (utf8 " d2,tablet,acme,x2,ios,17,2024-02-01,2026-02-01,active,abc") (by decide)
  refine ⟨d, hd, hid, ?_, ?_, ?_⟩
  · have e : (strings.Split
        (utf8 " d2,tablet,acme,x2,ios,17,2024-02-01,2026-02-01,active,abc") 44)[0]?
        = some (utf8 " d2") := by decide
    rw [e] at h0
    exact (Option.some.inj h0).symm
  · have e : (strings.Split
        (utf8 " d2,tablet,acme,x2,ios,17,2024-02-01,2026-02-01,active,abc") 44)[1]?
        = some (utf8 "tablet") := by decide
    rw [e] at h1
    exact (Option.some.inj h1).symm
  · have e : (strings.Split
        (utf8 " d2,tablet,acme,x2,ios,17,2024-02-01,2026-02-01,active,abc") 44)[8]?
        = some (utf8 "active") := by decide
    rw [e] at h8
    exact (Option.some.inj h8).symm

/-- C9: in an accepted line, a price field that is `'-'` followed by digits
denoting `n`, `1 ≤ n ≤ 2 ^ 63`, gives the price `2 ^ 64 - n` (not 0, and no
rejection); a price field that is `'+'` followed by digits denoting
`n ≤ 2 ^ 63 - 1` gives the price `n`. -/
theorem signed_price_wraps (line ds : GoString)
    (h : 10 ≤ (strings.Split line 44).length) (hds : ds.all isDigit = true) :
    ((strings.Split line 44).getD 9 [] = 45 :: ds →
      1 ≤ decimalValue ds → decimalValue ds ≤ 2 ^ 63 →
      ∃ d, parseRecord line = some d ∧ d.Price = 2 ^ 64 - decimalValue ds) ∧
    ((strings.Split line 44).getD 9 [] = 43 :: ds →
      decimalValue ds ≤ 2 ^ 63 - 1 →
      ∃ d, parseRecord line = some d ∧ d.Price = decimalValue ds) := by
  constructor
  · intro hf h1 h2
    refine ⟨_, parseRecord_of_accepted line h, ?_⟩
    show strconv.toUint64 (atoiSafe _) = _
    rw [hf]
    have hne : ds ≠ [] := by
      rintro rfl
      simp [decimalValue, decimalFrom] at h1
    have hu : unsignedPart (45 :: ds) = ds := by simp [unsignedPart]
    rw [atoiSafe_neg (45 :: ds) rfl (by rw [hu]; exact ⟨hne, hds⟩), hu]
    unfold strconv.toUint64
    generalize decimalValue ds = n at h1 h2 ⊢
    norm_num at h2 ⊢
    omega
  · intro hf h2
    refine ⟨_, parseRecord_of_accepted line h, ?_⟩
    show strconv.toUint64 (atoiSafe _) = _
    rw [hf]
    have hu : unsignedPart (43 :: ds) = ds := by simp [unsignedPart]
    by_cases hne : ds = []
    · subst hne
      decide
    · rw [atoiSafe_nonneg (43 :: ds) (by simp [isNegative]) (by rw [hu]; exact ⟨hne, hds⟩), hu]
      unfold strconv.toUint64
      generalize decimalValue ds = n at h2 ⊢
      norm_num at h2 ⊢
      omega

set_option maxRecDepth 100000 in
/-- C9, at the price fields `-1` and `+42`: the prices are `2 ^ 64 - 1` and
42. -/
theorem signed_price_wraps_witness :
    (∃ d, parseRecord (utf8 "d1,phone,acme,x1,android,14,2024-01-01,2026-01-01,active,-1")
        = some d ∧ d.Price = 18446744073709551615) ∧
    (∃ d, parseRecord (utf8 "d1,phone,acme,x1,android,14,2024-01-01,2026-01-01,active,+42")
        = some d ∧ d.Price = 42) := by
  constructor
  · exact (signed_price_wraps
      (utf8 "d1,phone,acme,x1,android,14,2024-01-01,2026-01-01,active,-1") (utf8 "1")
      (by decide) (by decide)).1 (by decide) (by decide) (by decide)
  · exact (signed_price_wraps
      (utf8 "d1,phone,acme,x1,android,14,2024-01-01,2026-01-01,active,+42") (utf8 "42")
      (by decide) (by decide)).2 (by decide) (by decide)

/-- C10 (as stated, refuted): 20 nines followed by `x` is not an optionally
signed run of decimal digits, yet `atoiSafe` returns `2 ^ 63 - 1` on it, not
0. The string has 21 bytes, so `Atoi` takes the slow path; in `ParseUint`
the accumulator is 9999999999999999999 after 19 digits, which is at least
`cutoff`, so the twentieth digit returns `maxVal` with a range error before
the `x` is looked at; `ParseInt` then clamps to `2 ^ 63 - 1`. -/
theorem atoiSafe_overflow_before_bad_byte :
    ¬ isSignedDecimal (utf8 "99999999999999999999x") ∧
    atoiSafe (utf8 "99999999999999999999x") = 9223372036854775807 := by
  decide

/-- C10 (amended): on a run of decimal digits whose value exceeds
`2 ^ 63 - 1`, `atoiSafe` returns 9223372036854775807 and a device built from
a record with that price field has price 9223372036854775807; on a string
that is not an optionally signed non-empty run of decimal digits, `atoiSafe`
returns 0 provided the digits before the first other byte (after the sign)
denote a number below `2 ^ 64`. -/
theorem atoiSafe_clamps (s : GoString) :
    (isDecimal s → decimalValue s > 2 ^ 63 - 1 →
      atoiSafe s = 9223372036854775807 ∧
      ∀ data : List GoString, data.getD 9 [] = s →
        (deviceOf data).Price = 9223372036854775807) ∧
    (¬ isSignedDecimal s →
      decimalValue ((unsignedPart s).takeWhile isDigit) < 2 ^ 64 → atoiSafe s = 0) := by
  refine ⟨?_, atoiSafe_bad s⟩
  intro hd hv
  have hfirst : ∀ c ∈ s, c ≠ 43 ∧ c ≠ 45 := by
    intro c hc
    have := List.all_eq_true.mp hd.2 c hc
    simp only [isDigit, decide_eq_true_eq] at this
    constructor <;> rintro rfl <;> exact absurd this (by decide)
  have hu : unsignedPart s = s := by
    cases s with
    | nil => rfl
    | cons c cs =>
      have := hfirst c (List.mem_cons_self _ _)
      simp [unsignedPart, this.1, this.2]
  have hneg : isNegative s = false := by
    cases s with
    | nil => rfl
    | cons c cs =>
      have := hfirst c (List.mem_cons_self _ _)
      simp [isNegative, this.2]
  have hval : atoiSafe s = 9223372036854775807 := by
    rw [atoiSafe_nonneg s hneg (by rw [hu]; exact hd), hu]
    generalize decimalValue s = n at hv ⊢
    norm_num at hv ⊢
    omega
  refine ⟨hval, ?_⟩
  intro data hdata
  show strconv.toUint64 (atoiSafe _) = _
  rw [hdata, hval]
  rfl

/-- C10, at concrete strings: `9223372036854775808` is clamped, and `abc`,
the empty string, ` 5` and `5.0` give 0. -/
theorem atoiSafe_clamps_witness :
    atoiSafe (utf8 "9223372036854775808") = 9223372036854775807 ∧
    atoiSafe (utf8 "abc") = 0 ∧ atoiSafe (utf8 "") = 0 ∧
    atoiSafe (utf8 " 5") = 0 ∧ atoiSafe (utf8 "5.0") = 0 := by
  refine ⟨?_, ?_, ?_, ?_, ?_⟩
  · exact ((atoiSafe_clamps (utf8 "9223372036854775808")).1 (by decide) (by decide)).1
  · exact (atoiSafe_clamps (utf8 "abc")).2 (by decide) (by decide)
  · exact (atoiSafe_clamps (utf8 "")).2 (by decide) (by decide)
  · exact (atoiSafe_clamps (utf8 " 5")).2 (by decide) (by decide)
  · exact (atoiSafe_clamps (utf8 "5.0")).2 (by decide) (by decide)

/-! ## The invariant of a run -/

theorem start_inv (create : List Device → Bool) (lines : List GoString) (readFault : Bool) :
    Inv create lines (start lines readFault) where
  lines_eq := by simp [start]
  closed_input := by simp [start]
  reader_closed := by simp [start]
  batcher_rel := by simp [BatcherRel, start, loopState]
  batch_closed := by simp [start]
  delivered := by simp [start]
  sent_nonempty := by simp [start]
  written := by simp [start, processing]
  outcomes := by simp [start]
  workers_len := by simp [start]
  wg_count := by simp [start]
  exited := by simp [start]
  responded := by simp [start]

theorem readerStep_inv (create : List Device → Bool) (lines : List GoString)
    (s s1 : Pipeline) (h : Inv create lines s) (hs : readerStep s = some s1) :
    Inv create lines s1 := by
  have h1 := h.lines_eq
  have h2 := h.closed_input
  have h3 := h.reader_closed
  unfold readerStep at hs
  split at hs
  · rename_i hpc
    have hopen : s.recordClosed = false := h3.1 hpc
    split at hs
    · rename_i line rest hin
      split at hs
      · cases hs
        refine { h with lines_eq := ?_, closed_input := ?_ }
        · simp only [hin] at h1; simpa using h1
        · intro hc
          rw [hopen] at hc
          cases hc
      · cases hs
    · rename_i hin
      cases hs
      refine { h with closed_input := ?_, reader_closed := ?_ }
      · intro _; exact hin
      · simp
  · rename_i hpc
    cases hs
    refine { h with reader_closed := ?_ }
    have : s.recordClosed ≠ false := fun hc => by
      have := h3.2 hc
      rw [hpc] at this
      cases this
    simpa using this
  · cases hs

theorem loopState_snoc (rs : List GoString) (r : GoString) :
    loopState (rs ++ [r]) = batcherStep (loopState rs) r := by
  simp [loopState, List.foldl_append]

theorem batcher_of_loopState (lines : List GoString) :
    batcher lines =
      if (loopState lines).batch.length > 0 then
        (loopState lines).sent ++ [(loopState lines).batch]
      else (loopState lines).sent := by
  unfold batcher batcherRun loopState
  simp only
  split <;> rfl

theorem batcherGo_inv (create : List Device → Bool) (lines : List GoString)
    (s s1 : Pipeline) (h : Inv create lines s) (hs : batcherGo s = some s1) :
    Inv create lines s1 := by
  have h1 := h.lines_eq
  have h2 := h.closed_input
  have hrel := h.batcher_rel
  have hbc := h.batch_closed
  have hdel := h.delivered
  have hne := h.sent_nonempty
  have hex := h.exited
  unfold BatcherRel at hrel
  unfold batcherGo at hs
  split at hs
  · rename_i hpc
    rw [hpc] at hrel
    simp only at hrel
    split at hs
    · rename_i record rest hrc
      split at hs
      · rename_i hparse
        cases hs
        refine { h with lines_eq := ?_, batcher_rel := ?_ }
        · simp only [hrc] at h1; simpa using h1
        · unfold BatcherRel
          simp only [hpc]
          rw [loopState_snoc]
          simp only [batcherStep, hparse]
          exact hrel
      · rename_i device hparse
        cases hs
        refine { h with lines_eq := ?_, batcher_rel := ?_, batch_closed := ?_ }
        · simp only [hrc] at h1; simpa using h1
        · unfold BatcherRel
          simp only
          rw [loopState_snoc]
          simp only [batcherStep, hparse, hrel.1]
          by_cases hfull : (s.batch ++ [device]).length ≥ chunkSize
          · simp only [hfull, if_true]
            refine ⟨trivial, ?_, ?_⟩
            · rw [hrel.2]
            · simp
          · simp only [hfull, if_false]
            exact ⟨trivial, hrel.2⟩
        · simp only
          rw [hbc, hpc]
          split <;> simp
    · rename_i hrc
      split at hs
      · rename_i hclosed
        cases hs
        have hin := h2 hclosed
        have htaken : s.taken = lines := by
          rw [← h1, hrc, hin]; simp
        refine { h with batcher_rel := ?_, batch_closed := ?_ }
        · unfold BatcherRel
          simp only
          by_cases hb : s.batch.length > 0
          · simp only [if_pos hb]
            exact ⟨hrel.1, hrel.2, hb, htaken⟩
          · simp only [if_neg hb]
            rw [batcher_of_loopState, ← htaken, hrel.1, hrel.2, if_neg hb]
        · simp only
          rw [hbc, hpc]
          split <;> simp
      · cases hs
  · rename_i hpc
    rw [hpc] at hrel
    simp only at hrel
    split at hs
    · cases hs
      refine { h with
        batcher_rel := ?_
        batch_closed := ?_
        delivered := ?_
        sent_nonempty := ?_
        exited := ?_ }
      · unfold BatcherRel
        simp only
        exact ⟨hrel.1, hrel.2.1⟩
      · simp only
        rw [hbc, hpc]
        simp
      · simp only
        rw [hdel]
        simp
      · intro b hb
        simp only [List.mem_append, List.mem_singleton] at hb
        rcases hb with hb | hb
        · exact hne b hb
        · rw [hb]; exact hrel.2.2
      · intro hd
        have := (hex hd).1
        rw [hbc, hpc] at this
        cases this
    · cases hs
  · rename_i hpc
    rw [hpc] at hrel
    simp only at hrel
    split at hs
    · cases hs
      refine { h with
        batcher_rel := ?_
        batch_closed := ?_
        delivered := ?_
        sent_nonempty := ?_
        exited := ?_ }
      · unfold BatcherRel
        simp only
        rw [batcher_of_loopState, ← hrel.2.2.2, hrel.1, hrel.2.1, if_pos hrel.2.2.1]
      · simp only
        rw [hbc, hpc]
        simp
      · simp only
        rw [hdel]
        simp
      · intro b hb
        simp only [List.mem_append, List.mem_singleton] at hb
        rcases hb with hb | hb
        · exact hne b hb
        · rw [hb]; exact hrel.2.2.1
      · intro hd
        have := (hex hd).1
        rw [hbc, hpc] at this
        cases this
    · cases hs
  · rename_i hpc
    rw [hpc] at hrel
    simp only at hrel
    cases hs
    refine { h with batcher_rel := ?_, batch_closed := ?_, exited := ?_ }
    · unfold BatcherRel
      simp only
      exact hrel
    · simp
    · intro hd
      have := (hex hd).1
      rw [hbc, hpc] at this
      cases this
  · cases hs

theorem set_decomp {α : Type} (ws : List α) (i : Nat) (old : α) (h : ws[i]? = some old) :
    ∃ l1 l2, ws = l1 ++ old :: l2 ∧ ∀ new, ws.set i new = l1 ++ new :: l2 := by
  induction ws generalizing i with
  | nil => simp at h
  | cons w ws ih =>
    cases i with
    | zero =>
      simp only [List.getElem?_cons_zero, Option.some.injEq] at h
      subst h
      exact ⟨[], ws, rfl, fun _ => rfl⟩
    | succ i =>
      simp only [List.getElem?_cons_succ] at h
      obtain ⟨l1, l2, h1, h2⟩ := ih i h
      refine ⟨w :: l1, l2, by rw [h1]; rfl, fun new => ?_⟩
      simp [List.set_cons_succ, h2]

theorem processing_append (l1 l2 : List WorkerPc) :
    processing (l1 ++ l2) = processing l1 ++ processing l2 := by
  simp [processing, List.filterMap_append]

theorem processing_cons_process (b : List Device) (l : List WorkerPc) :
    processing (WorkerPc.process b :: l) = b :: processing l := by
  simp [processing, List.filterMap_cons]

theorem processing_cons_recv (l : List WorkerPc) :
    processing (WorkerPc.recv :: l) = processing l := by
  simp [processing, List.filterMap_cons]

theorem processing_cons_done (l : List WorkerPc) :
    processing (WorkerPc.done :: l) = processing l := by
  simp [processing, List.filterMap_cons]

theorem workerStep_inv (create : List Device → Bool) (lines : List GoString) (i : Nat)
    (s s1 : Pipeline) (h : Inv create lines s) (hs : workerStep create i s = some s1) :
    Inv create lines s1 := by
  have hdel := h.delivered
  have hwr := h.written
  have hout := h.outcomes
  have hlen := h.workers_len
  have hwg := h.wg_count
  have hex := h.exited
  have hresp := h.responded
  unfold workerStep at hs
  split at hs
  · rename_i hw
    obtain ⟨l1, l2, hws, hset⟩ := set_decomp s.workers i _ hw
    split at hs
    · rename_i batch rest hbc
      cases hs
      have hclosed : WorkerPc.done ∈ s.workers → False := by
        intro hd
        have := (hex hd).2
        rw [hbc] at this
        cases this
      refine { h with
        delivered := ?_
        written := ?_
        workers_len := ?_
        wg_count := ?_
        exited := ?_ }
      · simp only
        rw [hdel, hbc]
        simp
      · simp only [hset]
        have hpos : 0 < batch.length := by
          apply h.sent_nonempty
          rw [hdel, hbc]
          simp
        rw [if_pos hpos]
        rw [hws] at hwr
        simp only [processing_append, processing_cons_process, processing_cons_recv,
          List.map_append, List.map_cons, List.map_nil] at hwr ⊢
        have := hwr.append_right [batch]
        refine List.Perm.trans ?_ this
        simp only [List.append_assoc]
        refine List.Perm.append_left _ (List.Perm.append_left _ ?_)
        exact (List.perm_append_singleton batch (processing l2)).symm
      · simp only [List.length_set]
        exact hlen
      · simp only [hset]
        rw [hws] at hwg
        split <;> simpa using hwg
      · intro hd
        exfalso
        apply hclosed
        simp only [hset] at hd
        rw [hws]
        simp only [List.mem_append, List.mem_cons] at hd ⊢
        rcases hd with hd | hd | hd
        · exact Or.inl hd
        · split at hd <;> cases hd
        · exact Or.inr (Or.inr hd)
    · rename_i hbc
      split at hs
      · rename_i hcl
        cases hs
        have hcount : s.wg ≥ 1 := by
          rw [hws] at hwg hlen
          have := List.countP_le_length (fun w => decide (w = WorkerPc.done)) (l := l1)
          have := List.countP_le_length (fun w => decide (w = WorkerPc.done)) (l := l2)
          simp [List.countP_cons] at hwg hlen
          omega
        refine { h with
          written := ?_
          workers_len := ?_
          wg_count := ?_
          exited := ?_
          responded := ?_ }
        · simp only [hset]
          rw [hws] at hwr
          simpa [processing_append, processing_cons_recv, processing_cons_done] using hwr
        · simp only [List.length_set]
          exact hlen
        · simp only [hset]
          rw [hws] at hwg
          simp [List.countP_cons] at hwg ⊢
          omega
        · intro _
          exact ⟨hcl, hbc⟩
        · intro r hr
          have := (hresp r hr).1
          omega
      · cases hs
  · rename_i batch hw
    obtain ⟨l1, l2, hws, hset⟩ := set_decomp s.workers i _ hw
    cases hs
    refine { h with
      written := ?_
      outcomes := ?_
      workers_len := ?_
      wg_count := ?_
      exited := ?_ }
    · simp only [hset]
      rw [hws] at hwr
      simp only [processing_append, processing_cons_process, processing_cons_recv,
        List.map_append, List.map_cons, List.map_nil] at hwr ⊢
      refine List.Perm.trans ?_ hwr
      simp only [List.append_assoc]
      refine List.Perm.append_left _ ?_
      simp only [List.singleton_append]
      exact (List.perm_middle).symm
    · intro c hc
      simp only [List.mem_append, List.mem_singleton] at hc
      rcases hc with hc | hc
      · exact hout c hc
      · rw [hc]
    · simp only [List.length_set]
      exact hlen
    · simp only [hset]
      rw [hws] at hwg
      simpa [List.countP_cons] using hwg
    · intro hd
      apply hex
      simp only [hset] at hd
      rw [hws]
      simp only [List.mem_append, List.mem_cons] at hd ⊢
      rcases hd with hd | hd | hd
      · exact Or.inl hd
      · cases hd
      · exact Or.inr (Or.inr hd)
  · cases hs

theorem handlerStep_inv (create : List Device → Bool) (lines : List GoString)
    (s s1 : Pipeline) (h : Inv create lines s) (hs : handlerStep s = some s1) :
    Inv create lines s1 := by
  unfold handlerStep at hs
  split at hs
  · rename_i hc
    cases hs
    refine { h with responded := ?_ }
    intro r hr
    simp only [Option.some.injEq] at hr
    exact ⟨hc.1, hr.symm⟩
  · cases hs

theorem step_inv (create : List Device → Bool) (lines : List GoString) (g : Goroutine)
    (s s1 : Pipeline) (h : Inv create lines s) (hs : step create s g = some s1) :
    Inv create lines s1 := by
  cases g with
  | reader => exact readerStep_inv create lines s s1 h hs
  | batcher => exact batcherGo_inv create lines s s1 h hs
  | worker i => exact workerStep_inv create lines i s s1 h hs
  | handler => exact handlerStep_inv create lines s s1 h hs

theorem run_inv (create : List Device → Bool) (lines : List GoString) (sched : List Goroutine)
    (s s1 : Pipeline) (h : Inv create lines s) (hs : run create s sched = some s1) :
    Inv create lines s1 := by
  induction sched generalizing s with
  | nil =>
    simp only [run, Option.some.injEq] at hs
    rw [← hs]; exact h
  | cons g gs ih =>
    simp only [run] at hs
    split at hs
    · cases hs
    · rename_i s2 hstep
      exact ih s2 (step_inv create lines g s s2 h hstep) hs

/-! ## Termination and progress of a run -/

theorem readerStep_cost (s s1 : Pipeline) (hs : readerStep s = some s1) :
    s1.cost < s.cost := by
  unfold readerStep at hs
  split at hs
  · rename_i hpc
    split at hs
    · rename_i line rest hin
      split at hs
      · cases hs
        simp only [Pipeline.cost, hin, List.length_cons, List.length_append, List.length_nil]
        omega
      · cases hs
    · rename_i hin
      cases hs
      simp only [Pipeline.cost, hpc, ReaderPc.cost, hin, List.length_nil]
      omega
  · rename_i hpc
    cases hs
    simp only [Pipeline.cost, hpc, ReaderPc.cost]
    omega
  · cases hs

theorem batcherGo_cost (s s1 : Pipeline) (hs : batcherGo s = some s1) :
    s1.cost < s.cost := by
  unfold batcherGo at hs
  split at hs
  · rename_i hpc
    split at hs
    · rename_i record rest hrc
      split at hs
      · cases hs
        simp only [Pipeline.cost, hrc, hpc, List.length_cons]
        omega
      · cases hs
        simp only [Pipeline.cost, hrc, hpc, List.length_cons]
        split <;> simp only [BatcherPc.cost] <;> omega
    · split at hs
      · cases hs
        simp only [Pipeline.cost, hpc]
        split <;> simp only [BatcherPc.cost] <;> omega
      · cases hs
  · rename_i hpc
    split at hs
    · cases hs
      simp only [Pipeline.cost, hpc, BatcherPc.cost, List.length_append, List.length_singleton]
      omega
    · cases hs
  · rename_i hpc
    split at hs
    · cases hs
      simp only [Pipeline.cost, hpc, BatcherPc.cost, List.length_append, List.length_singleton]
      omega
    · cases hs
  · rename_i hpc
    cases hs
    simp only [Pipeline.cost, hpc, BatcherPc.cost]
    omega
  · cases hs

theorem workerStep_cost (create : List Device → Bool) (i : Nat) (s s1 : Pipeline)
    (hs : workerStep create i s = some s1) : s1.cost < s.cost := by
  unfold workerStep at hs
  split at hs
  · rename_i hw
    obtain ⟨l1, l2, hws, hset⟩ := set_decomp s.workers i _ hw
    split at hs
    · rename_i batch rest hbc
      cases hs
      simp only [Pipeline.cost, hset, hbc]
      simp only [hws, List.length_cons, List.map_append,
        List.map_cons, List.sum_append, List.sum_cons]
      split <;> simp only [WorkerPc.cost] <;> omega
    · split at hs
      · rename_i hbc _
        cases hs
        simp only [Pipeline.cost, hset]
        simp only [hws, List.map_append,
          List.map_cons, List.sum_append, List.sum_cons, WorkerPc.cost]
        omega
      · cases hs
  · rename_i batch hw
    obtain ⟨l1, l2, hws, hset⟩ := set_decomp s.workers i _ hw
    cases hs
    simp only [Pipeline.cost, hset]
    simp only [hws, List.map_append,
      List.map_cons, List.sum_append, List.sum_cons, WorkerPc.cost]
    omega
  · cases hs

theorem handlerStep_cost (s s1 : Pipeline) (hs : handlerStep s = some s1) :
    s1.cost < s.cost := by
  unfold handlerStep at hs
  split at hs
  · rename_i hc
    cases hs
    simp only [Pipeline.cost, hc.2]
    omega
  · cases hs

theorem step_cost (create : List Device → Bool) (g : Goroutine) (s s1 : Pipeline)
    (hs : step create s g = some s1) : s1.cost < s.cost := by
  cases g with
  | reader => exact readerStep_cost s s1 hs
  | batcher => exact batcherGo_cost s s1 hs
  | worker i => exact workerStep_cost create i s s1 hs
  | handler => exact handlerStep_cost s s1 hs

theorem run_cost (create : List Device → Bool) (sched : List Goroutine) (s s1 : Pipeline)
    (hs : run create s sched = some s1) : s1.cost + sched.length ≤ s.cost := by
  induction sched generalizing s with
  | nil =>
    simp only [run, Option.some.injEq] at hs
    rw [← hs]; simp
  | cons g gs ih =>
    simp only [run] at hs
    split at hs
    · cases hs
    · rename_i s2 hstep
      have h1 := ih s2 hs
      have h2 := step_cost create g s s2 hstep
      simp only [List.length_cons]
      omega

/-- No deadlock: as long as the response is not sent, some goroutine can
take a step. -/
theorem progress (create : List Device → Bool) (lines : List GoString) (s : Pipeline)
    (h : Inv create lines s) (hr : s.response = none) :
    ∃ g, (step create s g).isSome = true := by
  by_cases hall : ∀ w ∈ s.workers, w = WorkerPc.done
  · have hcount : s.workers.countP (fun w => decide (w = WorkerPc.done)) = s.workers.length := by
      rw [List.countP_eq_length]
      intro w hw
      simpa using hall w hw
    have hwg := h.wg_count
    rw [hcount, h.workers_len] at hwg
    have hwg0 : s.wg = 0 := by omega
    exact ⟨Goroutine.handler, by simp [step, handlerStep, hwg0, hr]⟩
  · push_neg at hall
    obtain ⟨w, hmem, hnd⟩ := hall
    obtain ⟨i, hi⟩ := List.getElem?_of_mem hmem
    cases w with
    | done => exact absurd rfl hnd
    | process b => exact ⟨Goroutine.worker i, by simp [step, workerStep, hi]⟩
    | recv =>
      cases hbc : s.batchChannel with
      | cons b rest => exact ⟨Goroutine.worker i, by simp [step, workerStep, hi, hbc]⟩
      | nil =>
        by_cases hcl : s.batchClosed = true
        · exact ⟨Goroutine.worker i, by simp [step, workerStep, hi, hbc, hcl]⟩
        · have hroom : s.batchChannel.length < batchChannelCap := by
            rw [hbc]; simp [batchChannelCap]
          cases hpc : s.batcherPc with
          | done => exact absurd (h.batch_closed.2 hpc) hcl
          | closing => exact ⟨Goroutine.batcher, by simp [step, batcherGo, hpc]⟩
          | sendLast => exact ⟨Goroutine.batcher, by simp [step, batcherGo, hpc, hroom]⟩
          | sendFull => exact ⟨Goroutine.batcher, by simp [step, batcherGo, hpc, hroom]⟩
          | recv =>
            cases hrc : s.recordChannel with
            | cons r rest =>
              refine ⟨Goroutine.batcher, ?_⟩
              simp only [step, batcherGo, hpc, hrc]
              cases parseRecord r <;> rfl
            | nil =>
              by_cases hrcl : s.recordClosed = true
              · exact ⟨Goroutine.batcher, by simp [step, batcherGo, hpc, hrc, hrcl]⟩
              · have hscan : s.readerPc = ReaderPc.scan :=
                  h.reader_closed.2 (by simpa using hrcl)
                refine ⟨Goroutine.reader, ?_⟩
                cases hin : s.input with
                | nil => simp [step, readerStep, hscan, hin]
                | cons l rest =>
                  simp [step, readerStep, hscan, hin, hrc, recordChannelCap]

/-- Every run can be continued to its end: from a state of a run there is a
schedule after which the response is sent. -/
theorem run_completes (create : List Device → Bool) (lines : List GoString) (n : Nat) :
    ∀ s : Pipeline, Inv create lines s → s.cost ≤ n →
      ∃ sched s1, run create s sched = some s1 ∧ s1.response = some uploadedResponse := by
  induction n with
  | zero =>
    intro s h hc
    cases hr : s.response with
    | none =>
      simp only [Pipeline.cost, hr] at hc
      omega
    | some r =>
      have := (h.responded r hr).2
      exact ⟨[], s, rfl, by rw [hr, this]⟩
  | succ n ih =>
    intro s h hc
    cases hr : s.response with
    | some r =>
      have := (h.responded r hr).2
      exact ⟨[], s, rfl, by rw [hr, this]⟩
    | none =>
      obtain ⟨g, hg⟩ := progress create lines s h hr
      obtain ⟨s2, hs2⟩ := Option.isSome_iff_exists.mp hg
      have hcost := step_cost create g s s2 hs2
      obtain ⟨sched, s1, hrun, hresp⟩ :=
        ih s2 (step_inv create lines g s s2 h hs2) (by omega)
      refine ⟨g :: sched, s1, ?_, hresp⟩
      simp only [run, hs2]
      exact hrun

theorem processing_of_all_done (ws : List WorkerPc) (h : ∀ w ∈ ws, w = WorkerPc.done) :
    processing ws = [] := by
  induction ws with
  | nil => rfl
  | cons w ws ih =>
    have hw := h w (List.mem_cons_self _ _)
    subst hw
    rw [processing_cons_done]
    exact ih (fun x hx => h x (List.mem_cons_of_mem _ hx))

/-- What holds once the response is sent: every worker has returned,
`batchChannel` is closed and empty, the batches sent are those of the
batcher's loop on all the lines, they were received in that order, and the
calls of `db.Create` are a rearrangement of them. -/
theorem inv_at_response (create : List Device → Bool) (lines : List GoString) (s : Pipeline)
    (h : Inv create lines s) (hresp : s.response ≠ none) :
    (∀ w ∈ s.workers, w = WorkerPc.done) ∧ s.batchClosed = true ∧ s.batchChannel = [] ∧
      s.sent = batcher lines ∧ s.received.map Prod.snd = batcher lines ∧
      List.Perm (s.calls.map Prod.fst) (batcher lines) := by
  obtain ⟨r, hr⟩ := Option.ne_none_iff_exists'.mp hresp
  have hwg0 := (h.responded r hr).1
  have hwg := h.wg_count
  have hlen := h.workers_len
  have hall : ∀ w ∈ s.workers, w = WorkerPc.done := by
    have hcount : s.workers.countP (fun w => decide (w = WorkerPc.done)) = s.workers.length := by
      omega
    rw [List.countP_eq_length] at hcount
    intro w hw
    simpa using hcount w hw
  have hne : s.workers ≠ [] := by
    intro hnil
    rw [hnil] at hlen
    simp [numWorkers] at hlen
  obtain ⟨w, hw⟩ := List.exists_mem_of_ne_nil _ hne
  have hdone : WorkerPc.done ∈ s.workers := by
    have := hall w hw
    rw [this] at hw
    exact hw
  obtain ⟨hcl, hbc⟩ := h.exited hdone
  have hpc := h.batch_closed.1 hcl
  have hrel := h.batcher_rel
  unfold BatcherRel at hrel
  rw [hpc] at hrel
  simp only at hrel
  have hdel := h.delivered
  rw [hbc, List.append_nil] at hdel
  have hwr := h.written
  rw [processing_of_all_done _ hall, List.append_nil, ← hdel, hrel] at hwr
  exact ⟨hall, hcl, hbc, hrel, by rw [← hdel, hrel], hwr⟩

theorem calls_of_outcomes (create : List Device → Bool) (calls : List (List Device × Bool))
    (h : ∀ c ∈ calls, c.2 = create c.1) :
    calls = (calls.map Prod.fst).map (fun b => (b, create b)) := by
  induction calls with
  | nil => rfl
  | cons c cs ih =>
    have hc := h c (List.mem_cons_self _ _)
    have := ih (fun x hx => h x (List.mem_cons_of_mem _ hx))
    simp only [List.map_cons]
    rw [← this, ← hc]

theorem filter_succeeded (create : List Device → Bool) (bs : List (List Device)) :
    ((bs.map (fun b => (b, create b))).filter (fun c => c.2)).map Prod.fst
      = bs.filter create := by
  induction bs with
  | nil => rfl
  | cons b bs ih =>
    simp only [List.map_cons, List.filter_cons]
    cases create b <;> simp [ih]

theorem countP_add_countP_not {α : Type} (p : α → Bool) (l : List α) :
    l.countP p + l.countP (fun a => !p a) = l.length := by
  induction l with
  | nil => rfl
  | cons a l ih =>
    simp only [List.countP_cons, List.length_cons]
    cases p a <;> simp <;> omega

/-! ## The claims on the workers, the response and the barrier -/

/-- C6: whatever function from batches to success or failure the store's
bulk write is, every run can be completed, and in every run that has sent
its response the calls of `db.Create` made through `processBatch` are the
batches the batcher emitted, each exactly once, with the outcome the store
gives; the calls that succeeded are the emitted batches on which the write
succeeds, so when the write fails for exactly one of the `N` emitted
batches the other `N - 1` are written. -/
theorem every_batch_written_once (create : List Device → Bool) (lines : List GoString)
    (readFault : Bool) :
    (∃ sched s, run create (start lines readFault) sched = some s ∧
      s.response = some uploadedResponse) ∧
    (∀ sched s, run create (start lines readFault) sched = some s → s.response ≠ none →
      List.Perm (s.calls.map Prod.fst) (batcher lines) ∧
      (∀ c ∈ s.calls, c.2 = create c.1) ∧
      List.Perm ((s.calls.filter (fun c => c.2)).map Prod.fst)
        ((batcher lines).filter create) ∧
      ((batcher lines).countP (fun b => !create b) = 1 →
        s.calls.length = (batcher lines).length ∧
        (s.calls.filter (fun c => c.2)).length = (batcher lines).length - 1)) := by
  refine ⟨run_completes create lines _ _ (start_inv create lines readFault) (le_refl _), ?_⟩
  intro sched s hrun hresp
  have hinv := run_inv create lines sched _ s (start_inv create lines readFault) hrun
  obtain ⟨_, _, _, _, _, hperm⟩ := inv_at_response create lines s hinv hresp
  have hout := hinv.outcomes
  have hcalls := calls_of_outcomes create s.calls hout
  have hfilter : (s.calls.filter (fun c => c.2)).map Prod.fst
      = (s.calls.map Prod.fst).filter create := by
    have key : ∀ bs : List (List Device), s.calls = bs.map (fun b => (b, create b)) →
        (s.calls.filter (fun c => c.2)).map Prod.fst = bs.filter create := by
      intro bs hb
      rw [hb]
      exact filter_succeeded create bs
    exact key _ hcalls
  refine ⟨hperm, hout, ?_, ?_⟩
  · rw [hfilter]
    exact hperm.filter create
  · intro hone
    have hlen : s.calls.length = (batcher lines).length := by
      have := hperm.length_eq
      simpa using this
    refine ⟨hlen, ?_⟩
    have h1 := congrArg List.length hfilter
    rw [List.length_map] at h1
    rw [h1, ← List.countP_eq_length_filter, hperm.countP_eq]
    have := countP_add_countP_not create (batcher lines)
    omega

set_option maxRecDepth 100000 in
/-- C6, on the scenario with a store whose every write fails: the run
completes and the one emitted batch is passed to `db.Create` once. -/
theorem every_batch_written_once_witness :
    ∃ s, run (fun _ => false) (start scenario false) scenarioSchedule = some s ∧
      s.response = some uploadedResponse ∧
      List.Perm (s.calls.map Prod.fst) (batcher scenario) ∧
      (batcher scenario).length = 1 := by
  have h : uploadCSV (fun _ => false) (Upload.file scenario false) scenarioSchedule
      = some uploadedResponse := by decide
  simp only [uploadCSV] at h
  split at h
  · cases h
  · rename_i s hs
    have hne : s.response ≠ none := by rw [h]; simp
    exact ⟨s, hs, h,
      ((every_batch_written_once (fun _ => false) scenario false).2
        scenarioSchedule s hs hne).1, by decide⟩

/-- C7: when the file is present and opens, whatever the lines, the read
fault and the outcomes of the bulk writes, every response `uploadCSV` sends
is the response 200 with the message `CSV uploaded and processed
successfully`; some schedule sends it; and every run is finite (at most
`5 * n + 18` steps for `n` lines) and can go on as long as the response is
not sent, so a run does not end without it. -/
theorem upload_always_ok (create : List Device → Bool) (lines : List GoString)
    (readFault : Bool) :
    uploadedResponse
      = { code := 200, key := "message", value := "CSV uploaded and processed successfully" } ∧
    (∀ sched r, uploadCSV create (Upload.file lines readFault) sched = some r →
      r = uploadedResponse) ∧
    (∃ sched, uploadCSV create (Upload.file lines readFault) sched = some uploadedResponse) ∧
    (∀ sched s, run create (start lines readFault) sched = some s →
      sched.length ≤ 5 * lines.length + 18 ∧
      (s.response = none → ∃ g, (step create s g).isSome = true)) := by
  refine ⟨rfl, ?_, ?_, ?_⟩
  · intro sched r hr
    simp only [uploadCSV] at hr
    split at hr
    · cases hr
    · rename_i s hs
      have hinv := run_inv create lines sched _ s (start_inv create lines readFault) hs
      exact (hinv.responded r hr).2
  · obtain ⟨sched, s, hs, hresp⟩ :=
      run_completes create lines _ _ (start_inv create lines readFault) (le_refl _)
    refine ⟨sched, ?_⟩
    simp only [uploadCSV, hs]
    exact hresp
  · intro sched s hs
    have hinv := run_inv create lines sched _ s (start_inv create lines readFault) hs
    have hcost := run_cost create sched _ s hs
    have hstart : (start lines readFault).cost = 5 * lines.length + 18 := by
      simp [Pipeline.cost, start, numWorkers, ReaderPc.cost, BatcherPc.cost, WorkerPc.cost]
    rw [hstart] at hcost
    exact ⟨by omega, progress create lines s hinv⟩

set_option maxRecDepth 100000 in
/-- C7, on the scenario: the same response whether every write succeeds or
every write fails, with or without a read fault; without a file the
response is an error. -/
theorem upload_always_ok_witness :
    uploadCSV (fun _ => true) (Upload.file scenario false) scenarioSchedule
      = some uploadedResponse ∧
    uploadCSV (fun _ => false) (Upload.file scenario true) scenarioSchedule
      = some uploadedResponse ∧
    uploadCSV (fun _ => true) Upload.noFile [] = some (respondWithError 400 "File is required") ∧
    uploadCSV (fun _ => true) Upload.openFails []
      = some (respondWithError 500 "Failed to open file") := by
  refine ⟨?_, ?_, rfl, rfl⟩
  · have hsome : (uploadCSV (fun _ => true) (Upload.file scenario false)
        scenarioSchedule).isSome = true := by decide
    obtain ⟨r, hr⟩ := Option.isSome_iff_exists.mp hsome
    rw [hr, (upload_always_ok (fun _ => true) scenario false).2.1 scenarioSchedule r hr]
  · have hsome : (uploadCSV (fun _ => false) (Upload.file scenario true)
        scenarioSchedule).isSome = true := by decide
    obtain ⟨r, hr⟩ := Option.isSome_iff_exists.mp hsome
    rw [hr, (upload_always_ok (fun _ => false) scenario true).2.1 scenarioSchedule r hr]

/-- C8: under every schedule of the reader, the batcher, the ten workers
and the handler, once the response is sent `batchChannel` is closed and
empty, each of the ten workers has left its loop and called `wg.Done()`,
the batches received by the workers are, in order, the batches the batcher
emitted (each emitted batch was received once, none is left in the
channel), and each of them has been through one call of `db.Create` that
has returned. -/
theorem response_after_workers (create : List Device → Bool) (lines : List GoString)
    (readFault : Bool) (sched : List Goroutine) (s : Pipeline)
    (hrun : run create (start lines readFault) sched = some s)
    (hresp : s.response ≠ none) :
    s.batchClosed = true ∧ s.batchChannel = [] ∧
    s.workers.length = numWorkers ∧ numWorkers = 10 ∧
    (∀ w ∈ s.workers, w = WorkerPc.done) ∧ s.wg = 0 ∧
    s.sent = batcher lines ∧ s.received.map Prod.snd = s.sent ∧
    List.Perm (s.calls.map Prod.fst) s.sent := by
  have hinv := run_inv create lines sched _ s (start_inv create lines readFault) hrun
  obtain ⟨hall, hcl, hbc, hsent, hrecv, hperm⟩ := inv_at_response create lines s hinv hresp
  obtain ⟨r, hr⟩ := Option.ne_none_iff_exists'.mp hresp
  refine ⟨hcl, hbc, hinv.workers_len, rfl, hall, (hinv.responded r hr).1, hsent, ?_, ?_⟩
  · rw [hrecv, hsent]
  · rw [hsent]; exact hperm

set_option maxRecDepth 100000 in
/-- C8, on the scenario: at the end of the schedule the response is sent,
the channel is closed, and worker 3 has received the one batch. -/
theorem response_after_workers_witness :
    ∃ s, run (fun _ => true) (start scenario false) scenarioSchedule = some s ∧
      s.response = some uploadedResponse ∧ s.batchClosed = true ∧
      (∀ w ∈ s.workers, w = WorkerPc.done) ∧
      s.received.map Prod.snd = batcher scenario := by
  have h : uploadCSV (fun _ => true) (Upload.file scenario false) scenarioSchedule
      = some uploadedResponse := by decide
  simp only [uploadCSV] at h
  split at h
  · cases h
  · rename_i s hs
    have hne : s.response ≠ none := by rw [h]; simp
    obtain ⟨h1, _, _, _, h5, _, h7, h8, _⟩ :=
      response_after_workers (fun _ => true) scenario false scenarioSchedule s hs hne
    exact ⟨s, hs, h, h1, h5, by rw [h8, h7]⟩

end MiniProject
